import Mathlib

/-- The `rounding` configuration of the engine (`'floor'`, `'ceil'`,
`'nearest'`). -/
inductive Rounding where
  | floor
  | ceil
  | nearest
deriving DecidableEq, Repr

/-- Python's `round` on an exact rational: round half to even. -/
def pyRound (q : ℚ) : ℤ :=
  let f := ⌊q⌋
  let frac := q - (f : ℚ)
  if frac < 1/2 then f
  else if 1/2 < frac then f + 1
  else if f % 2 = 0 then f else f + 1

/-- The rounding step of `split_size`: `math.floor`, `math.ceil` or
`round` applied to `raw = p * n`. -/
def applyRounding (rnd : Rounding) (q : ℚ) : ℤ :=
  match rnd with
  | .floor => ⌊q⌋
  | .ceil => ⌈q⌉
  | .nearest => pyRound q

/-- `split_size` (leaf_splitting_sim.py lines 79-89): `raw = p * n`,
round according to the mode, clamp to `[1, n-1]`, return `(k, n - k)`. -/
def split_size (p : ℚ) (rnd : Rounding) (n : ℤ) : ℤ × ℤ :=
  let raw : ℚ := p * (n : ℚ)
  let k := max 1 (min (n - 1) (applyRounding rnd raw))
  (k, n - k)

/-- The split-point selection of `insert_adaptive` (lines 236-246):
`p_split = clamp(floor(p*size))`; split at `p` if the insertion
end-position is strictly left of `p_split`, else at `1-p`. -/
def adaptiveChoice (p : ℚ) (size endPos : ℤ) : ℤ × ℤ :=
  let pSplit := max 1 (min (size - 1) ⌊p * (size : ℚ)⌋)
  if endPos < pSplit then (pSplit, size - pSplit)
  else (size - pSplit, pSplit)

/-- The split-point selection of `insert_adaptive2` (lines 321-332):
compute `p_split = clamp(floor(p*size))` and its mirror
`size - p_split`; split at the mirror when the insertion end-position
exceeds it, else at `p_split`. -/
def adaptive2Choice (p : ℚ) (size endPos : ℤ) : ℤ × ℤ :=
  let pSplit := max 1 (min (size - 1) ⌊p * (size : ℚ)⌋)
  let oneMinusPPos := size - pSplit
  if endPos > oneMinusPPos then (oneMinusPPos, pSplit)
  else (pSplit, oneMinusPPos)

/-- `sum(count * size for size, count in size_counts.items())` and the
total physically stored elements `Σ size·count`. -/
def sumSC (h : List (ℤ × ℤ)) : ℤ := (h.map (fun e => e.2 * e.1)).sum

/-- `sum(size_counts.values())` — the block count the code derives. -/
def sumC (h : List (ℤ × ℤ)) : ℤ := (h.map Prod.snd).sum

/-- `size_counts[old_size] -= 1; if size_counts[old_size] == 0: del ...`
(lines 392-394), for a key that is present. -/
def decHist : List (ℤ × ℤ) → ℤ → List (ℤ × ℤ)
  | [], _ => []
  | (s, c) :: rest, key =>
      if s = key then (if c - 1 = 0 then rest else (s, c - 1) :: rest)
      else (s, c) :: decHist rest key

/-- `size_counts[size] = size_counts.get(size, 0) + 1` (line 410): bump
an existing entry in place, or append a fresh key at the end. -/
def bumpHist : List (ℤ × ℤ) → ℤ → List (ℤ × ℤ)
  | [], key => [(key, 1)]
  | (s, c) :: rest, key =>
      if s = key then (s, c + 1) :: rest
      else (s, c) :: bumpHist rest key

/-- Merging the policy's resulting blocks back into the histogram
(lines 409-410). -/
def mergeHist (h : List (ℤ × ℤ)) (blocks : List ℤ) : List (ℤ × ℤ) :=
  blocks.foldl bumpHist h

/-! ## Block sampler (`sample_block`, lines 93-111) -/

/-- `total_weight = sum(count * size ...)` (line 95). -/
def totalWeight (h : List (ℤ × ℤ)) : ℤ := sumSC h

/-- The cumulative-sum walk of `sample_block` (lines 101-109), given the
`random.randint(0, total_weight - 1)` draw. -/
def walkSample (rand : ℤ) : List (ℤ × ℤ) → ℤ → Option (ℤ × ℤ)
  | [], _ => none
  | (size, count) :: rest, cumsum =>
      let cumsum2 := cumsum + count * size
      if rand < cumsum2 then
        let withinClass := rand - (cumsum2 - count * size)
        some (size, if 0 < size then withinClass % size else 0)
      else walkSample rand rest cumsum2

/-- `sample_block()`: weight-proportional sampling of an occupancy class
plus a position inside it.  `randVal` is the `random.randint` draw and
`choiceIdx` the index `random.choice` would pick in the degenerate
zero-weight case (taken modulo the number of keys so that every oracle
value encodes a valid choice). -/
def sample_block (h : List (ℤ × ℤ)) (randVal : ℤ) (choiceIdx : ℕ) : ℤ × ℤ :=
  if totalWeight h = 0 then
    let sizes := h.map Prod.fst
    (sizes.getD (choiceIdx % sizes.length) 0, 0)
  else
    match walkSample randVal h 0 with
    | some res => res
    | none =>
        let maxSize := (h.map Prod.fst).max?.getD 0
        (maxSize, Int.fdiv maxSize 2)

/-! ## The deferred policy (`insert_deferred`, lines 114-149) -/

/-- The cascading-split `while blocks_to_split` loop (lines 127-147):
pop the head of the FIFO work list, append any child `≥ B` back onto
it, and collect children `< B` into `resulting_blocks`.  Fuel bounds
the number of iterations; `none` means the loop had not finished. -/
def cascadeFuel (B : ℤ) (p : ℚ) (rnd : Rounding) :
    ℕ → List ℤ → List ℤ → ℕ → Option (List ℤ × ℕ)
  | 0, queue, acc, s => if queue = [] then some (acc, s) else none
  | fuel + 1, queue, acc, s =>
      match queue with
      | [] => some (acc, s)
      | current :: rest =>
          if current < B then cascadeFuel B p rnd fuel rest (acc ++ [current]) s
          else
            let lr := split_size p rnd current
            let q1 := if B ≤ lr.1 then rest ++ [lr.1] else rest
            let a1 := if B ≤ lr.1 then acc else acc ++ [lr.1]
            let q2 := if B ≤ lr.2 then q1 ++ [lr.2] else q1
            let a2 := if B ≤ lr.2 then a1 else a1 ++ [lr.2]
            cascadeFuel B p rnd fuel q2 a2 (s + 1)

/-- `insert_deferred(block_size, batch_size)`: insert the whole batch,
then cascade if the block reached capacity. -/
def insert_deferred (B : ℤ) (p : ℚ) (rnd : Rounding) (fuel : ℕ)
    (blockSize batchSize : ℤ) : Option (List ℤ × ℕ) :=
  let newSize := blockSize + batchSize
  if newSize < B then some ([newSize], 0)
  else cascadeFuel B p rnd fuel [newSize] [] 0

/-- The shared `while True` insertion loop.  State: `cur` = current
block size, `pos` = insertion position inside it, `rem` = elements
remaining, `acc` = blocks emitted so far, `s` = split count.  Note that
in the exact-fill case (`rem = space`) whose insertion ends inside the
left child the loop `break`s before `num_splits += 1`, so that split is
not counted — exactly as in the source. -/
def splitLoop (B : ℤ) (choose : ℤ → ℤ × ℤ) :
    ℕ → ℤ → ℤ → ℤ → List ℤ → ℕ → Option (List ℤ × ℕ)
  | 0, _, _, _, _, _ => none
  | fuel + 1, cur, pos, rem, acc, s =>
      let space := B - cur
      if rem < space then some (acc ++ [cur + rem], s)
      else if rem = space then
        let endPos := pos + space
        let lr := choose endPos
        if endPos ≤ lr.1 then some (acc ++ [lr.1, lr.2], s)
        else splitLoop B choose fuel lr.2 (endPos - lr.1) 0 (acc ++ [lr.1]) (s + 1)
      else
        let rem1 := rem - space
        let endPos := pos + space
        let lr := choose endPos
        if endPos ≤ lr.1 then splitLoop B choose fuel lr.1 endPos rem1 (acc ++ [lr.2]) (s + 1)
        else splitLoop B choose fuel lr.2 (endPos - lr.1) rem1 (acc ++ [lr.1]) (s + 1)

/-- `insert_immediately`: split the full block at `split_size(B)`
(position-independent). -/
def insert_immediately (B : ℤ) (p : ℚ) (rnd : Rounding) (fuel : ℕ)
    (blockSize insertPos batchSize : ℤ) : Option (List ℤ × ℕ) :=
  splitLoop B (fun _ => split_size p rnd B) fuel blockSize insertPos batchSize [] 0

/-- `insert_adaptive`: split point depends on the insertion
end-position via `adaptiveChoice`. -/
def insert_adaptive (B : ℤ) (p : ℚ) (rnd : Rounding) (fuel : ℕ)
    (blockSize insertPos batchSize : ℤ) : Option (List ℤ × ℕ) :=
  splitLoop B (adaptiveChoice p B) fuel blockSize insertPos batchSize [] 0

/-- `insert_adaptive2`: the symmetric variant via `adaptive2Choice`. -/
def insert_adaptive2 (B : ℤ) (p : ℚ) (rnd : Rounding) (fuel : ℕ)
    (blockSize insertPos batchSize : ℤ) : Option (List ℤ × ℕ) :=
  splitLoop B (adaptive2Choice p B) fuel blockSize insertPos batchSize [] 0

/-! ## The simulation loop (`simulate`, lines 31-460) -/

/-- Outcome of a (partial) run: a normal return, a raised
`ValueError`/`AssertionError`, or fuel exhaustion of an inner policy
loop (the Python loop would still be running). -/
inductive SimOutcome (α : Type) where
  | ok : α → SimOutcome α
  | err : String → SimOutcome α
  | outOfFuel : SimOutcome α
deriving DecidableEq, Repr

/-- Lift a fuel-limited policy result into an outcome. -/
def ofOpt {α : Type} : Option α → SimOutcome α
  | some a => .ok a
  | none => .outOfFuel

/-- The mutable state of one run: the histogram, `total_keys`, and the
`Stats` counters that the loop updates (the unused `moves`,
`blocks_tally`-unrelated fields of `Stats` are carried where used).
`nblocks` additionally tracks the semantic number of blocks — one
initial block, each batch replacing one block by the policy's
resulting blocks — so the histogram-bookkeeping invariant
`sum(counts) = number of blocks` is a real statement, not a
definition. -/
structure SimState where
  hist : List (ℤ × ℤ)
  nblocks : ℤ
  totalKeys : ℤ
  inserts : ℤ
  splits : ℕ
  blocksTally : ℤ
  elemTally : ℤ
  capacityTally : ℤ
deriving DecidableEq, Repr

/-- `size_counts = {0: 1}` plus zeroed counters (lines 72-76). -/
def initState : SimState :=
  { hist := [(0, 1)], nblocks := 1, totalKeys := 0, inserts := 0,
    splits := 0, blocksTally := 0, elemTally := 0, capacityTally := 0 }

/-- The message of the `ValueError` raised for an unknown method
(line 406), naming the accepted set. -/
def unknownMethodMsg (method : String) : String :=
  "Unknown method " ++ method ++
    ". Must be deferred, immediately, adaptive, or adaptive2."

/-- The four-way dispatch on the method string (lines 397-406), in
source order, with the `raise ValueError` fallback. -/
def dispatch (B : ℤ) (method : String) (p : ℚ) (rnd : Rounding) (fuel : ℕ)
    (occ pos r : ℤ) : SimOutcome (List ℤ × ℕ) :=
  if method = "deferred" then ofOpt (insert_deferred B p rnd fuel occ r)
  else if method = "adaptive" then ofOpt (insert_adaptive B p rnd fuel occ pos r)
  else if method = "adaptive2" then ofOpt (insert_adaptive2 B p rnd fuel occ pos r)
  else if method = "immediately" then ofOpt (insert_immediately B p rnd fuel occ pos r)
  else .err (unknownMethodMsg method)

/-- One iteration of the main loop (lines 385-419): sample a block,
remove it, run the policy, merge the resulting blocks back, update the
stats.  `orv` is the oracle's `(randint draw, choice index)` for this
batch. -/
def simStep (B r : ℤ) (method : String) (p : ℚ) (rnd : Rounding) (fuel : ℕ)
    (orv : ℤ × ℕ) (st : SimState) : SimOutcome SimState :=
  let sample := sample_block st.hist orv.1 orv.2
  let h1 := decHist st.hist sample.1
  match dispatch B method p rnd fuel sample.1 sample.2 r with
  | .ok res =>
      let h2 := mergeHist h1 res.1
      let numBlocks := sumC h2
      .ok { hist := h2,
            nblocks := st.nblocks - 1 + res.1.length,
            totalKeys := st.totalKeys + r,
            inserts := st.inserts + r,
            splits := st.splits + res.2,
            blocksTally := st.blocksTally + numBlocks * r,
            elemTally := st.elemTally + (st.totalKeys + r) * r,
            capacityTally := st.capacityTally + B * numBlocks * r }
  | .err m => .err m
  | .outOfFuel => .outOfFuel

/-- `for batch_idx in range(k)` from the initial state; `oracle` yields
each batch's RNG values. -/
def runBatches (B r : ℤ) (method : String) (p : ℚ) (rnd : Rounding)
    (fuel : ℕ) (oracle : ℕ → ℤ × ℕ) : ℕ → SimOutcome SimState
  | 0 => .ok initState
  | k + 1 =>
      match runBatches B r method p rnd fuel oracle k with
      | .ok st => simStep B r method p rnd fuel (oracle k) st
      | .err m => .err m
      | .outOfFuel => .outOfFuel

/-- The result record (lines 432-460); the fields the claims are about
(the deferred-only diagnostics `k_H`, `k_L`, `mu` are derived values
not referenced by any claim). -/
structure SimRecord where
  method : String
  hist : List (ℤ × ℤ)
  finalBlocks : ℤ
  finalFullness : ℚ
  timeAvgFullness : ℚ
  totalInsertions : ℤ
  inserts : ℤ
  splits : ℕ
  B : ℤ
  r : ℤ
deriving DecidableEq, Repr

/-- `simulate(B, r, total_insertions, method, p, rounding)`: the
`assert r >= 1`, `num_batches = total_insertions // r`, the batch
loop, and the final statistics (lines 67-69 and 421-460). -/
def simulate (B r total_insertions : ℤ) (method : String) (p : ℚ)
    (rnd : Rounding) (oracle : ℕ → ℤ × ℕ) (fuel : ℕ) : SimOutcome SimRecord :=
  if r < 1 then .err "r must be >= 1"
  else
    let numBatches := Int.fdiv total_insertions r
    let n := numBatches * r
    match runBatches B r method p rnd fuel oracle numBatches.toNat with
    | .ok st =>
        let finalBlocks := sumC st.hist
        .ok { method := method,
              hist := st.hist,
              finalBlocks := finalBlocks,
              finalFullness :=
                if 0 < finalBlocks then (n : ℚ) / ((B : ℚ) * (finalBlocks : ℚ)) else 0,
              timeAvgFullness :=
                if 0 < st.capacityTally then (st.elemTally : ℚ) / (st.capacityTally : ℚ) else 0,
              totalInsertions := n,
              inserts := st.inserts,
              splits := st.splits,
              B := B, r := r }
    | .err m => .err m
    | .outOfFuel => .outOfFuel

/-- A fixed oracle (all draws 0) used for concrete runs. -/
def orc0 : ℕ → ℤ × ℕ := fun _ => (0, 0)

/-- A property of the final value of a successfully completed
computation; vacuous on error or fuel exhaustion. -/
def onOk {α : Type} (o : SimOutcome α) (P : α → Prop) : Prop :=
  match o with
  | .ok a => P a
  | _ => True

/-- Termination potential of the cascade work queue: `Σ (2x - 1)` over
its entries; strictly decreases at every split. -/
def cascPot (q : List ℤ) : ℕ := (q.map (fun x => (2 * x - 1).toNat)).sum

/-- The method strings `simulate` accepts. -/
def validMethod (m : String) : Prop :=
  m = "deferred" ∨ m = "adaptive" ∨ m = "adaptive2" ∨ m = "immediately"

/-- The unconditional per-batch invariant: after `k` completed batches
the histogram is non-empty, all stored counts are ≥ 1, the stored
elements equal `k·r` (as do `total_keys` and `stats.inserts`), and the
count total agrees with the semantic block count, which is ≥ 1. -/
structure InvA (r : ℤ) (k : ℕ) (st : SimState) : Prop where
  ne : st.hist ≠ []
  cpos : ∀ e ∈ st.hist, 1 ≤ e.2
  conserve : sumSC st.hist = (k : ℤ) * r
  counts : sumC st.hist = st.nblocks
  inserts : st.inserts = (k : ℤ) * r
  tkeys : st.totalKeys = (k : ℤ) * r
  nb1 : 1 ≤ st.nblocks

/-- The capacity-bound invariant, available once `B ≥ 2` and `r ≥ 1`:
histogram keys stay in `[0, B-1]` (in `[1, B-1]` once a batch has
completed), and the time-average tallies satisfy
`0 ≤ elem_tally ≤ capacity_tally`. -/
structure InvB (B r : ℤ) (k : ℕ) (st : SimState) : Prop where
  ne : st.hist ≠ []
  cpos : ∀ e ∈ st.hist, 1 ≤ e.2
  keyLB : ∀ e ∈ st.hist, 0 ≤ e.1
  keyUB : ∀ e ∈ st.hist, e.1 ≤ B - 1
  keyPos : 1 ≤ k → ∀ e ∈ st.hist, 1 ≤ e.1
  init0 : k = 0 → st = initState
  conserve : sumSC st.hist = (k : ℤ) * r
  tkeys : st.totalKeys = (k : ℤ) * r
  elemNN : 0 ≤ st.elemTally
  elemLe : st.elemTally ≤ st.capacityTally
  elemPos : 1 ≤ k → 1 ≤ st.elemTally

/-- A per-batch fuel amount sufficient for every policy call when
`B ≥ 2`, `r ≥ 1` and the sampled occupancy is `< B`. -/
def fuelF (B r : ℤ) : ℕ := (2 * (B + r)).toNat

/-
`Rat.mul`, `Rat.add`, `Rat.sub` and `Rat.inv` are `@[irreducible]` in
the library, which blocks `decide`-style evaluation of concrete runs;
make them semireducible again for the concrete witnesses below.
-/
unseal Rat.mul Rat.add Rat.sub Rat.inv

/-- The batch-arithmetic property of a run: the result record's
`total_insertions` and `inserts` both equal `(total // r) · r`, and
`final_fullness` has `total_insertions` as numerator. -/
def batchArithProp (B r total : ℤ) (method : String) (p : ℚ) (rnd : Rounding)
    (oracle : ℕ → ℤ × ℕ) (fuel : ℕ) : Prop :=
  onOk (simulate B r total method p rnd oracle fuel)
    (fun rec => rec.totalInsertions = Int.fdiv total r * r ∧
      rec.inserts = Int.fdiv total r * r ∧
      rec.finalFullness =
        (if 0 < rec.finalBlocks
         then (rec.totalInsertions : ℚ) / ((B : ℚ) * ((rec.finalBlocks : ℤ) : ℚ))
         else 0))

/-- Modelled from the spec's words (§4.3, deferred): push `new_size`
onto a FIFO work queue and repeatedly pop a candidate size; if `< B` it
is final; otherwise split it via `split_size`, increment the split
count, and re-queue either child that is itself `≥ B`; terminate when
the queue empties.  Used only to state that the code's cascade follows
exactly this FIFO discipline. -/
def fifoCascadeSpec (B : ℤ) (p : ℚ) (rnd : Rounding) :
    ℕ → List ℤ → List ℤ → ℕ → Option (List ℤ × ℕ)
  | 0, queue, finals, s => if queue = [] then some (finals, s) else none
  | fuel + 1, queue, finals, s =>
      match queue with
      | [] => some (finals, s)
      | cand :: qrest =>
          if cand < B then fifoCascadeSpec B p rnd fuel qrest (finals ++ [cand]) s
          else
            let c := split_size p rnd cand
            fifoCascadeSpec B p rnd fuel
              (qrest ++ (if B ≤ c.1 then [c.1] else []) ++ (if B ≤ c.2 then [c.2] else []))
              (finals ++ (if B ≤ c.1 then [] else [c.1]) ++ (if B ≤ c.2 then [] else [c.2]))
              (s + 1)

/-!
Verification of the leaf-splitting simulation engine
(`leaf_splitting_sim.py`).

The engine is embedded shallowly:

* Python ints are modelled as `ℤ` (sizes, counters, weights) so that
  subtraction and division behave exactly as in Python; the split ratio
  `p` is modelled as `ℚ` (the float is used only through `p * n`,
  `floor`, `ceil` and `round`).
* Python's insertion-ordered `dict` histogram is an association list
  `List (ℤ × ℤ)` of `(occupancy, count)` pairs: updates keep an entry in
  place, a fresh key is appended at the end, and deletion removes the
  entry — exactly the iteration behaviour `sample_block` sees.
* the RNG is an oracle: each batch receives the value `random.randint`
  would return and the index `random.choice` would pick; theorems
  quantify over all oracle values.
* the unbounded `while` loops of the split policies receive fuel and
  return `none` when it runs out; termination claims are statements
  about sufficient fuel.
* `raise ValueError`/`assert` become an error outcome; a run is
  `ok record`, `err message`, or `outOfFuel`.
-/

theorem split_size_add (p : ℚ) (rnd : Rounding) (n : ℤ) :
    (split_size p rnd n).1 + (split_size p rnd n).2 = n := by
  simp [split_size]

theorem split_size_bounds (p : ℚ) (rnd : Rounding) (n : ℤ) (hn : 2 ≤ n) :
    1 ≤ (split_size p rnd n).1 ∧ (split_size p rnd n).1 ≤ n - 1 ∧
    1 ≤ (split_size p rnd n).2 ∧ (split_size p rnd n).2 ≤ n - 1 := by
  simp only [split_size]
  omega

theorem adaptiveChoice_add (p : ℚ) (size endPos : ℤ) :
    (adaptiveChoice p size endPos).1 + (adaptiveChoice p size endPos).2 = size := by
  simp only [adaptiveChoice]
  split <;> omega

theorem adaptive2Choice_add (p : ℚ) (size endPos : ℤ) :
    (adaptive2Choice p size endPos).1 + (adaptive2Choice p size endPos).2 = size := by
  simp only [adaptive2Choice]
  split <;> omega

theorem adaptiveChoice_bounds (p : ℚ) (size endPos : ℤ) (h : 2 ≤ size) :
    1 ≤ (adaptiveChoice p size endPos).1 ∧ (adaptiveChoice p size endPos).1 ≤ size - 1 ∧
    1 ≤ (adaptiveChoice p size endPos).2 ∧ (adaptiveChoice p size endPos).2 ≤ size - 1 := by
  simp only [adaptiveChoice]
  split <;> omega

theorem adaptive2Choice_bounds (p : ℚ) (size endPos : ℤ) (h : 2 ≤ size) :
    1 ≤ (adaptive2Choice p size endPos).1 ∧ (adaptive2Choice p size endPos).1 ≤ size - 1 ∧
    1 ≤ (adaptive2Choice p size endPos).2 ∧ (adaptive2Choice p size endPos).2 ≤ size - 1 := by
  simp only [adaptive2Choice]
  split <;> omega

/-! ## Histogram state

Python's `size_counts` dict as an insertion-ordered association list of
`(occupancy, count)` pairs. -/

/-! ## The position-based policies

`insert_immediately` (lines 151-210), `insert_adaptive` (212-295) and
`insert_adaptive2` (297-382) share their control flow verbatim and
differ only in how the split point of the (full, size `B`) block is
chosen, so the loop is embedded once, parameterized by that choice.
`choose endPos` returns `(left_size, right_size)` for the block of size
`B` being split when the batch's insertion end-position is `endPos`. -/

/-! ## Histogram bookkeeping lemmas -/

theorem sumSC_cons (s c : ℤ) (rest : List (ℤ × ℤ)) :
    sumSC ((s, c) :: rest) = c * s + sumSC rest := by
  simp [sumSC]

theorem sumC_cons (s c : ℤ) (rest : List (ℤ × ℤ)) :
    sumC ((s, c) :: rest) = c + sumC rest := by
  simp [sumC]

theorem mem_fst_of_cons {s c key : ℤ} {rest : List (ℤ × ℤ)}
    (hmem : key ∈ ((s, c) :: rest).map Prod.fst) (hs : s ≠ key) :
    key ∈ rest.map Prod.fst := by
  rcases List.mem_map.1 hmem with ⟨e, he, hfst⟩
  rcases List.mem_cons.1 he with he1 | he2
  · exact absurd (by rw [he1] at hfst; simpa using hfst) hs
  · exact List.mem_map.2 ⟨e, he2, hfst⟩

theorem sumSC_dec (h : List (ℤ × ℤ)) (key : ℤ) (hmem : key ∈ h.map Prod.fst) :
    sumSC (decHist h key) = sumSC h - key := by
  induction h with
  | nil => simp at hmem
  | cons e rest ih =>
    obtain ⟨s, c⟩ := e
    by_cases hs : s = key
    · subst hs
      by_cases hc : c - 1 = 0
      · rw [show decHist ((s, c) :: rest) s = rest by simp [decHist, hc]]
        rw [sumSC_cons]
        have hc1 : c = 1 := by omega
        rw [hc1]
        ring
      · rw [show decHist ((s, c) :: rest) s = (s, c - 1) :: rest by simp [decHist, hc]]
        rw [sumSC_cons, sumSC_cons]
        ring
    · have hmem2 := mem_fst_of_cons hmem hs
      rw [show decHist ((s, c) :: rest) key = (s, c) :: decHist rest key by
        simp [decHist, hs]]
      rw [sumSC_cons, sumSC_cons, ih hmem2]
      ring

theorem sumC_dec (h : List (ℤ × ℤ)) (key : ℤ) (hmem : key ∈ h.map Prod.fst) :
    sumC (decHist h key) = sumC h - 1 := by
  induction h with
  | nil => simp at hmem
  | cons e rest ih =>
    obtain ⟨s, c⟩ := e
    by_cases hs : s = key
    · subst hs
      by_cases hc : c - 1 = 0
      · rw [show decHist ((s, c) :: rest) s = rest by simp [decHist, hc]]
        rw [sumC_cons]
        have hc1 : c = 1 := by omega
        rw [hc1]
        ring
      · rw [show decHist ((s, c) :: rest) s = (s, c - 1) :: rest by simp [decHist, hc]]
        rw [sumC_cons, sumC_cons]
        ring
    · have hmem2 := mem_fst_of_cons hmem hs
      rw [show decHist ((s, c) :: rest) key = (s, c) :: decHist rest key by
        simp [decHist, hs]]
      rw [sumC_cons, sumC_cons, ih hmem2]
      ring

theorem decHist_keyPred (P : ℤ → Prop) (h : List (ℤ × ℤ)) (key : ℤ)
    (hall : ∀ e ∈ h, P e.1) : ∀ e ∈ decHist h key, P e.1 := by
  induction h with
  | nil => simp [decHist]
  | cons e rest ih =>
    obtain ⟨s, c⟩ := e
    intro x hx
    by_cases hs : s = key
    · subst hs
      by_cases hc : c - 1 = 0
      · simp [decHist, hc] at hx
        exact hall x (by simp [hx])
      · simp [decHist, hc] at hx
        rcases hx with hx | hx
        · subst hx
          exact hall (s, c) (by simp)
        · exact hall x (by simp [hx])
    · simp [decHist, hs] at hx
      rcases hx with hx | hx
      · subst hx
        exact hall (s, c) (by simp)
      · exact ih (fun e he => hall e (by simp [he])) x hx

theorem decHist_countPos (h : List (ℤ × ℤ)) (key : ℤ)
    (hall : ∀ e ∈ h, 1 ≤ e.2) : ∀ e ∈ decHist h key, 1 ≤ e.2 := by
  induction h with
  | nil => simp [decHist]
  | cons e rest ih =>
    obtain ⟨s, c⟩ := e
    intro x hx
    by_cases hs : s = key
    · subst hs
      by_cases hc : c - 1 = 0
      · simp [decHist, hc] at hx
        exact hall x (by simp [hx])
      · simp [decHist, hc] at hx
        rcases hx with hx | hx
        · have hc1 : 1 ≤ c := hall (s, c) (by simp)
          subst hx
          simp
          omega
        · exact hall x (by simp [hx])
    · simp [decHist, hs] at hx
      rcases hx with hx | hx
      · subst hx
        exact hall (s, c) (by simp)
      · exact ih (fun e he => hall e (by simp [he])) x hx

theorem sumSC_bump (h : List (ℤ × ℤ)) (key : ℤ) :
    sumSC (bumpHist h key) = sumSC h + key := by
  induction h with
  | nil => simp [bumpHist, sumSC]
  | cons e rest ih =>
    obtain ⟨s, c⟩ := e
    by_cases hs : s = key
    · subst hs
      simp [bumpHist, sumSC]
      ring
    · simp [bumpHist, hs, sumSC] at ih ⊢
      omega

theorem sumC_bump (h : List (ℤ × ℤ)) (key : ℤ) :
    sumC (bumpHist h key) = sumC h + 1 := by
  induction h with
  | nil => simp [bumpHist, sumC]
  | cons e rest ih =>
    obtain ⟨s, c⟩ := e
    by_cases hs : s = key
    · subst hs
      simp [bumpHist, sumC]
      ring
    · simp [bumpHist, hs, sumC] at ih ⊢
      omega

theorem bumpHist_keyPred (P : ℤ → Prop) (h : List (ℤ × ℤ)) (key : ℤ)
    (hall : ∀ e ∈ h, P e.1) (hkey : P key) : ∀ e ∈ bumpHist h key, P e.1 := by
  induction h with
  | nil =>
    intro x hx
    simp [bumpHist] at hx
    simp [hx, hkey]
  | cons e rest ih =>
    obtain ⟨s, c⟩ := e
    intro x hx
    by_cases hs : s = key
    · subst hs
      simp [bumpHist] at hx
      rcases hx with hx | hx
      · subst hx
        exact hall (s, c) (by simp)
      · exact hall x (by simp [hx])
    · simp [bumpHist, hs] at hx
      rcases hx with hx | hx
      · subst hx
        exact hall (s, c) (by simp)
      · exact ih (fun e he => hall e (by simp [he])) x hx

theorem bumpHist_countPos (h : List (ℤ × ℤ)) (key : ℤ)
    (hall : ∀ e ∈ h, 1 ≤ e.2) : ∀ e ∈ bumpHist h key, 1 ≤ e.2 := by
  induction h with
  | nil =>
    intro x hx
    simp [bumpHist] at hx
    simp [hx]
  | cons e rest ih =>
    obtain ⟨s, c⟩ := e
    intro x hx
    by_cases hs : s = key
    · subst hs
      simp [bumpHist] at hx
      rcases hx with hx | hx
      · have := hall (s, c) (by simp)
        subst hx
        simp at this ⊢
        omega
      · exact hall x (by simp [hx])
    · simp [bumpHist, hs] at hx
      rcases hx with hx | hx
      · subst hx
        exact hall (s, c) (by simp)
      · exact ih (fun e he => hall e (by simp [he])) x hx

theorem bumpHist_ne_nil (h : List (ℤ × ℤ)) (key : ℤ) : bumpHist h key ≠ [] := by
  cases h with
  | nil => simp [bumpHist]
  | cons e rest =>
    obtain ⟨s, c⟩ := e
    by_cases hs : s = key <;> simp [bumpHist, hs]

theorem sumSC_merge (h : List (ℤ × ℤ)) (blocks : List ℤ) :
    sumSC (mergeHist h blocks) = sumSC h + blocks.sum := by
  induction blocks generalizing h with
  | nil => simp [mergeHist]
  | cons b rest ih =>
    have : mergeHist h (b :: rest) = mergeHist (bumpHist h b) rest := rfl
    rw [this, ih, sumSC_bump]
    simp
    ring

theorem sumC_merge (h : List (ℤ × ℤ)) (blocks : List ℤ) :
    sumC (mergeHist h blocks) = sumC h + blocks.length := by
  induction blocks generalizing h with
  | nil => simp [mergeHist]
  | cons b rest ih =>
    have : mergeHist h (b :: rest) = mergeHist (bumpHist h b) rest := rfl
    rw [this, ih, sumC_bump]
    simp
    ring

theorem mergeHist_keyPred (P : ℤ → Prop) (h : List (ℤ × ℤ)) (blocks : List ℤ)
    (hall : ∀ e ∈ h, P e.1) (hblocks : ∀ x ∈ blocks, P x) :
    ∀ e ∈ mergeHist h blocks, P e.1 := by
  induction blocks generalizing h with
  | nil => simpa [mergeHist] using hall
  | cons b rest ih =>
    have hmh : mergeHist h (b :: rest) = mergeHist (bumpHist h b) rest := rfl
    rw [hmh]
    exact ih (bumpHist h b)
      (bumpHist_keyPred P h b hall (hblocks b (by simp)))
      (fun x hx => hblocks x (by simp [hx]))

theorem mergeHist_countPos (h : List (ℤ × ℤ)) (blocks : List ℤ)
    (hall : ∀ e ∈ h, 1 ≤ e.2) : ∀ e ∈ mergeHist h blocks, 1 ≤ e.2 := by
  induction blocks generalizing h with
  | nil => simpa [mergeHist] using hall
  | cons b rest ih =>
    have hmh : mergeHist h (b :: rest) = mergeHist (bumpHist h b) rest := rfl
    rw [hmh]
    exact ih (bumpHist h b) (bumpHist_countPos h b hall)

theorem mergeHist_ne_nil (h : List (ℤ × ℤ)) (blocks : List ℤ)
    (hb : blocks ≠ []) : mergeHist h blocks ≠ [] := by
  induction blocks generalizing h with
  | nil => simp at hb
  | cons b rest ih =>
    have hmh : mergeHist h (b :: rest) = mergeHist (bumpHist h b) rest := rfl
    rw [hmh]
    by_cases hr : rest = []
    · subst hr
      simpa [mergeHist] using bumpHist_ne_nil h b
    · exact ih (bumpHist h b) hr

theorem sumC_nonneg (h : List (ℤ × ℤ)) (hall : ∀ e ∈ h, 1 ≤ e.2) :
    0 ≤ sumC h := by
  induction h with
  | nil => simp [sumC]
  | cons e rest ih =>
    have h1 : 1 ≤ e.2 := hall e (by simp)
    have h2 : 0 ≤ sumC rest := ih (fun x hx => hall x (by simp [hx]))
    simp [sumC] at h2 ⊢
    omega

theorem sumC_pos (h : List (ℤ × ℤ)) (hne : h ≠ []) (hall : ∀ e ∈ h, 1 ≤ e.2) :
    1 ≤ sumC h := by
  cases h with
  | nil => simp at hne
  | cons e rest =>
    have h1 : 1 ≤ e.2 := hall e (by simp)
    have h2 : 0 ≤ sumC rest := sumC_nonneg rest (fun x hx => hall x (by simp [hx]))
    simp [sumC] at h2 ⊢
    omega

theorem sumSC_le_of_bounds (h : List (ℤ × ℤ)) (B : ℤ)
    (hub : ∀ e ∈ h, e.1 ≤ B - 1) (hc : ∀ e ∈ h, 1 ≤ e.2) :
    sumSC h ≤ (B - 1) * sumC h := by
  induction h with
  | nil => simp [sumSC, sumC]
  | cons e rest ih =>
    have h1 : e.1 ≤ B - 1 := hub e (by simp)
    have h2 : 1 ≤ e.2 := hc e (by simp)
    have h3 : sumSC rest ≤ (B - 1) * sumC rest :=
      ih (fun x hx => hub x (by simp [hx])) (fun x hx => hc x (by simp [hx]))
    have h4 : e.2 * e.1 ≤ e.2 * (B - 1) :=
      mul_le_mul_of_nonneg_left h1 (by omega)
    simp [sumSC, sumC] at h3 ⊢
    nlinarith

/-! ## Sampler lemmas -/

theorem walkSample_mem (rand : ℤ) (l : List (ℤ × ℤ)) (cumsum : ℤ)
    (res : ℤ × ℤ) (hw : walkSample rand l cumsum = some res) :
    res.1 ∈ l.map Prod.fst := by
  induction l generalizing cumsum with
  | nil => simp [walkSample] at hw
  | cons e rest ih =>
    obtain ⟨size, count⟩ := e
    simp only [walkSample] at hw
    by_cases hlt : rand < cumsum + count * size
    · rw [if_pos hlt] at hw
      have hres : res.1 = size := by
        have := Option.some.inj hw
        rw [← this]
      simp [hres]
    · rw [if_neg hlt] at hw
      simp [ih _ hw]

theorem sample_block_mem (h : List (ℤ × ℤ)) (randVal : ℤ) (choiceIdx : ℕ)
    (hne : h ≠ []) : (sample_block h randVal choiceIdx).1 ∈ h.map Prod.fst := by
  unfold sample_block
  by_cases hw : totalWeight h = 0
  · rw [if_pos hw]
    show (h.map Prod.fst).getD (choiceIdx % (h.map Prod.fst).length) 0 ∈ h.map Prod.fst
    have hlen : 0 < (h.map Prod.fst).length := by
      simpa using List.length_pos.2 hne
    have hlt : choiceIdx % (h.map Prod.fst).length < (h.map Prod.fst).length :=
      Nat.mod_lt _ hlen
    rw [List.getD_eq_getElem _ _ hlt]
    exact List.getElem_mem hlt
  · rw [if_neg hw]
    cases hwalk : walkSample randVal h 0 with
    | some res => exact walkSample_mem randVal h 0 res hwalk
    | none =>
      show ((h.map Prod.fst).max?.getD 0, _).1 ∈ h.map Prod.fst
      have hne2 : h.map Prod.fst ≠ [] := by simpa using hne
      cases hmax : (h.map Prod.fst).max? with
      | none => exact absurd (List.max?_eq_none_iff.1 hmax) hne2
      | some m =>
        have hmem : m ∈ h.map Prod.fst :=
          List.max?_mem (fun a b => max_choice a b) hmax
        simpa using hmem

theorem walkSample_valid (rand : ℤ) (l : List (ℤ × ℤ)) (cumsum : ℤ)
    (hall : ∀ e ∈ l, 0 ≤ e.1 ∧ 0 ≤ e.2)
    (hlo : cumsum ≤ rand) (hhi : rand < cumsum + sumSC l) :
    ∃ s pos, walkSample rand l cumsum = some (s, pos) ∧
      s ∈ l.map Prod.fst ∧ 0 < s ∧ 0 ≤ pos ∧ pos < s := by
  induction l generalizing cumsum with
  | nil =>
    simp [sumSC] at hhi
    omega
  | cons e rest ih =>
    obtain ⟨size, count⟩ := e
    by_cases hlt : rand < cumsum + count * size
    · have hw : 0 < count * size := by omega
      have hsz : 0 < size := by
        rcases hall (size, count) (by simp) with ⟨h1, h2⟩
        simp at h1 h2
        nlinarith
      refine ⟨size, (rand - cumsum) % size, ?_, by simp, hsz, ?_, ?_⟩
      · simp only [walkSample, if_pos hlt, if_pos hsz]
        have harg : rand - (cumsum + count * size - count * size) = rand - cumsum := by
          ring
        rw [harg]
      · exact Int.emod_nonneg _ (by omega)
      · exact Int.emod_lt_of_pos _ hsz
    · have hlo2 : cumsum + count * size ≤ rand := by omega
      have hhi2 : rand < (cumsum + count * size) + sumSC rest := by
        rw [sumSC_cons] at hhi
        omega
      obtain ⟨s, pos, hw, hmem, h1, h2, h3⟩ :=
        ih _ (fun e he => hall e (by simp [he])) hlo2 hhi2
      refine ⟨s, pos, ?_, by simp [hmem], h1, h2, h3⟩
      simp only [walkSample, if_neg hlt]
      exact hw

/-! ## Deferred-cascade lemmas -/

theorem cascadeFuel_sum (B : ℤ) (p : ℚ) (rnd : Rounding) :
    ∀ fuel queue acc s L k,
      cascadeFuel B p rnd fuel queue acc s = some (L, k) →
      L.sum = acc.sum + queue.sum := by
  intro fuel
  induction fuel with
  | zero =>
    intro queue acc s L k h
    by_cases hq : queue = []
    · subst hq
      simp [cascadeFuel] at h
      simp [← h.1]
    · simp [cascadeFuel, hq] at h
  | succ fuel ih =>
    intro queue acc s L k h
    cases queue with
    | nil =>
      simp [cascadeFuel] at h
      simp [← h.1]
    | cons current rest =>
      by_cases hcur : current < B
      · rw [show cascadeFuel B p rnd (fuel + 1) (current :: rest) acc s =
            cascadeFuel B p rnd fuel rest (acc ++ [current]) s by
          simp [cascadeFuel, hcur]] at h
        have := ih rest (acc ++ [current]) s L k h
        simp [List.sum_append] at this ⊢
        omega
      · have hadd := split_size_add p rnd current
        by_cases hc1 : B ≤ (split_size p rnd current).1 <;>
          by_cases hc2 : B ≤ (split_size p rnd current).2
        · rw [show cascadeFuel B p rnd (fuel + 1) (current :: rest) acc s =
              cascadeFuel B p rnd fuel
                ((rest ++ [(split_size p rnd current).1]) ++ [(split_size p rnd current).2])
                acc (s + 1) by
            simp [cascadeFuel, hcur, hc1, hc2]] at h
          have := ih _ _ _ L k h
          simp [List.sum_append] at this ⊢
          omega
        · rw [show cascadeFuel B p rnd (fuel + 1) (current :: rest) acc s =
              cascadeFuel B p rnd fuel (rest ++ [(split_size p rnd current).1])
                (acc ++ [(split_size p rnd current).2]) (s + 1) by
            simp [cascadeFuel, hcur, hc1, hc2]] at h
          have := ih _ _ _ L k h
          simp [List.sum_append] at this ⊢
          omega
        · rw [show cascadeFuel B p rnd (fuel + 1) (current :: rest) acc s =
              cascadeFuel B p rnd fuel (rest ++ [(split_size p rnd current).2])
                (acc ++ [(split_size p rnd current).1]) (s + 1) by
            simp [cascadeFuel, hcur, hc1, hc2]] at h
          have := ih _ _ _ L k h
          simp [List.sum_append] at this ⊢
          omega
        · rw [show cascadeFuel B p rnd (fuel + 1) (current :: rest) acc s =
              cascadeFuel B p rnd fuel rest
                ((acc ++ [(split_size p rnd current).1]) ++ [(split_size p rnd current).2])
                (s + 1) by
            simp [cascadeFuel, hcur, hc1, hc2]] at h
          have := ih _ _ _ L k h
          simp [List.sum_append] at this ⊢
          omega

theorem cascadeFuel_extends (B : ℤ) (p : ℚ) (rnd : Rounding) :
    ∀ fuel queue acc s L k,
      cascadeFuel B p rnd fuel queue acc s = some (L, k) →
      ∃ t, L = acc ++ t ∧ (queue ≠ [] → t ≠ []) := by
  intro fuel
  induction fuel with
  | zero =>
    intro queue acc s L k h
    by_cases hq : queue = []
    · subst hq
      simp [cascadeFuel] at h
      exact ⟨[], by simp [← h.1], by simp⟩
    · simp [cascadeFuel, hq] at h
  | succ fuel ih =>
    intro queue acc s L k h
    cases queue with
    | nil =>
      simp [cascadeFuel] at h
      exact ⟨[], by simp [← h.1], by simp⟩
    | cons current rest =>
      by_cases hcur : current < B
      · rw [show cascadeFuel B p rnd (fuel + 1) (current :: rest) acc s =
            cascadeFuel B p rnd fuel rest (acc ++ [current]) s by
          simp [cascadeFuel, hcur]] at h
        obtain ⟨t, ht, _⟩ := ih rest (acc ++ [current]) s L k h
        exact ⟨current :: t, by simp [ht], by simp⟩
      · by_cases hc1 : B ≤ (split_size p rnd current).1 <;>
          by_cases hc2 : B ≤ (split_size p rnd current).2
        · rw [show cascadeFuel B p rnd (fuel + 1) (current :: rest) acc s =
              cascadeFuel B p rnd fuel
                ((rest ++ [(split_size p rnd current).1]) ++ [(split_size p rnd current).2])
                acc (s + 1) by
            simp [cascadeFuel, hcur, hc1, hc2]] at h
          obtain ⟨t, ht, htne⟩ := ih _ _ _ L k h
          exact ⟨t, ht, fun _ => htne (by simp)⟩
        · rw [show cascadeFuel B p rnd (fuel + 1) (current :: rest) acc s =
              cascadeFuel B p rnd fuel (rest ++ [(split_size p rnd current).1])
                (acc ++ [(split_size p rnd current).2]) (s + 1) by
            simp [cascadeFuel, hcur, hc1, hc2]] at h
          obtain ⟨t, ht, _⟩ := ih _ _ _ L k h
          exact ⟨(split_size p rnd current).2 :: t, by simp [ht], by simp⟩
        · rw [show cascadeFuel B p rnd (fuel + 1) (current :: rest) acc s =
              cascadeFuel B p rnd fuel (rest ++ [(split_size p rnd current).2])
                (acc ++ [(split_size p rnd current).1]) (s + 1) by
            simp [cascadeFuel, hcur, hc1, hc2]] at h
          obtain ⟨t, ht, _⟩ := ih _ _ _ L k h
          exact ⟨(split_size p rnd current).1 :: t, by simp [ht], by simp⟩
        · rw [show cascadeFuel B p rnd (fuel + 1) (current :: rest) acc s =
              cascadeFuel B p rnd fuel rest
                ((acc ++ [(split_size p rnd current).1]) ++ [(split_size p rnd current).2])
                (s + 1) by
            simp [cascadeFuel, hcur, hc1, hc2]] at h
          obtain ⟨t, ht, _⟩ := ih _ _ _ L k h
          exact ⟨(split_size p rnd current).1 :: (split_size p rnd current).2 :: t,
            by simp [ht], by simp⟩

theorem cascadeFuel_lt_B (B : ℤ) (p : ℚ) (rnd : Rounding) :
    ∀ fuel queue acc s L k,
      cascadeFuel B p rnd fuel queue acc s = some (L, k) →
      (∀ x ∈ acc, x < B) → ∀ x ∈ L, x < B := by
  intro fuel
  induction fuel with
  | zero =>
    intro queue acc s L k h hacc
    by_cases hq : queue = []
    · subst hq
      simp [cascadeFuel] at h
      intro x hx
      exact hacc x (by rw [h.1]; exact hx)
    · simp [cascadeFuel, hq] at h
  | succ fuel ih =>
    intro queue acc s L k h hacc
    cases queue with
    | nil =>
      simp [cascadeFuel] at h
      intro x hx
      exact hacc x (by rw [h.1]; exact hx)
    | cons current rest =>
      by_cases hcur : current < B
      · rw [show cascadeFuel B p rnd (fuel + 1) (current :: rest) acc s =
            cascadeFuel B p rnd fuel rest (acc ++ [current]) s by
          simp [cascadeFuel, hcur]] at h
        refine ih rest (acc ++ [current]) s L k h ?_
        intro x hx
        simp at hx
        rcases hx with hx | hx
        · exact hacc x hx
        · omega
      · by_cases hc1 : B ≤ (split_size p rnd current).1 <;>
          by_cases hc2 : B ≤ (split_size p rnd current).2
        · rw [show cascadeFuel B p rnd (fuel + 1) (current :: rest) acc s =
              cascadeFuel B p rnd fuel
                ((rest ++ [(split_size p rnd current).1]) ++ [(split_size p rnd current).2])
                acc (s + 1) by
            simp [cascadeFuel, hcur, hc1, hc2]] at h
          exact ih _ _ _ L k h hacc
        · rw [show cascadeFuel B p rnd (fuel + 1) (current :: rest) acc s =
              cascadeFuel B p rnd fuel (rest ++ [(split_size p rnd current).1])
                (acc ++ [(split_size p rnd current).2]) (s + 1) by
            simp [cascadeFuel, hcur, hc1, hc2]] at h
          refine ih _ _ _ L k h ?_
          intro x hx
          simp at hx
          rcases hx with hx | hx
          · exact hacc x hx
          · omega
        · rw [show cascadeFuel B p rnd (fuel + 1) (current :: rest) acc s =
              cascadeFuel B p rnd fuel (rest ++ [(split_size p rnd current).2])
                (acc ++ [(split_size p rnd current).1]) (s + 1) by
            simp [cascadeFuel, hcur, hc1, hc2]] at h
          refine ih _ _ _ L k h ?_
          intro x hx
          simp at hx
          rcases hx with hx | hx
          · exact hacc x hx
          · omega
        · rw [show cascadeFuel B p rnd (fuel + 1) (current :: rest) acc s =
              cascadeFuel B p rnd fuel rest
                ((acc ++ [(split_size p rnd current).1]) ++ [(split_size p rnd current).2])
                (s + 1) by
            simp [cascadeFuel, hcur, hc1, hc2]] at h
          refine ih _ _ _ L k h ?_
          intro x hx
          simp at hx
          rcases hx with hx | hx | hx
          · exact hacc x hx
          · omega
          · omega

theorem cascadeFuel_pos (B : ℤ) (p : ℚ) (rnd : Rounding) (hB : 2 ≤ B) :
    ∀ fuel queue acc s L k,
      cascadeFuel B p rnd fuel queue acc s = some (L, k) →
      (∀ x ∈ queue, B ≤ x) → (∀ x ∈ acc, 1 ≤ x) → ∀ x ∈ L, 1 ≤ x := by
  intro fuel
  induction fuel with
  | zero =>
    intro queue acc s L k h hq hacc
    by_cases hqe : queue = []
    · subst hqe
      simp [cascadeFuel] at h
      intro x hx
      exact hacc x (by rw [h.1]; exact hx)
    · simp [cascadeFuel, hqe] at h
  | succ fuel ih =>
    intro queue acc s L k h hq hacc
    cases queue with
    | nil =>
      simp [cascadeFuel] at h
      intro x hx
      exact hacc x (by rw [h.1]; exact hx)
    | cons current rest =>
      have hcB : B ≤ current := hq current (by simp)
      have hrest : ∀ x ∈ rest, B ≤ x := fun x hx => hq x (by simp [hx])
      obtain ⟨hs1, hs2, hs3, hs4⟩ := split_size_bounds p rnd current (by omega)
      by_cases hcur : current < B
      · rw [show cascadeFuel B p rnd (fuel + 1) (current :: rest) acc s =
            cascadeFuel B p rnd fuel rest (acc ++ [current]) s by
          simp [cascadeFuel, hcur]] at h
        refine ih rest (acc ++ [current]) s L k h hrest ?_
        intro x hx
        simp at hx
        rcases hx with hx | hx
        · exact hacc x hx
        · omega
      · by_cases hc1 : B ≤ (split_size p rnd current).1 <;>
          by_cases hc2 : B ≤ (split_size p rnd current).2
        · rw [show cascadeFuel B p rnd (fuel + 1) (current :: rest) acc s =
              cascadeFuel B p rnd fuel
                ((rest ++ [(split_size p rnd current).1]) ++ [(split_size p rnd current).2])
                acc (s + 1) by
            simp [cascadeFuel, hcur, hc1, hc2]] at h
          refine ih _ _ _ L k h ?_ hacc
          intro x hx
          simp at hx
          rcases hx with hx | hx | hx
          · exact hrest x hx
          · omega
          · omega
        · rw [show cascadeFuel B p rnd (fuel + 1) (current :: rest) acc s =
              cascadeFuel B p rnd fuel (rest ++ [(split_size p rnd current).1])
                (acc ++ [(split_size p rnd current).2]) (s + 1) by
            simp [cascadeFuel, hcur, hc1, hc2]] at h
          refine ih _ _ _ L k h ?_ ?_
          · intro x hx
            simp at hx
            rcases hx with hx | hx
            · exact hrest x hx
            · omega
          · intro x hx
            simp at hx
            rcases hx with hx | hx
            · exact hacc x hx
            · omega
        · rw [show cascadeFuel B p rnd (fuel + 1) (current :: rest) acc s =
              cascadeFuel B p rnd fuel (rest ++ [(split_size p rnd current).2])
                (acc ++ [(split_size p rnd current).1]) (s + 1) by
            simp [cascadeFuel, hcur, hc1, hc2]] at h
          refine ih _ _ _ L k h ?_ ?_
          · intro x hx
            simp at hx
            rcases hx with hx | hx
            · exact hrest x hx
            · omega
          · intro x hx
            simp at hx
            rcases hx with hx | hx
            · exact hacc x hx
            · omega
        · rw [show cascadeFuel B p rnd (fuel + 1) (current :: rest) acc s =
              cascadeFuel B p rnd fuel rest
                ((acc ++ [(split_size p rnd current).1]) ++ [(split_size p rnd current).2])
                (s + 1) by
            simp [cascadeFuel, hcur, hc1, hc2]] at h
          refine ih _ _ _ L k h hrest ?_
          intro x hx
          simp at hx
          rcases hx with hx | hx | hx
          · exact hacc x hx
          · omega
          · omega

theorem cascPot_cons (x : ℤ) (l : List ℤ) :
    cascPot (x :: l) = (2 * x - 1).toNat + cascPot l := by
  simp [cascPot]

theorem cascPot_append_single (l : List ℤ) (x : ℤ) :
    cascPot (l ++ [x]) = cascPot l + (2 * x - 1).toNat := by
  simp [cascPot]

theorem cascadeFuel_enough (B : ℤ) (p : ℚ) (rnd : Rounding) (hB : 2 ≤ B) :
    ∀ fuel queue acc s, (∀ x ∈ queue, B ≤ x) → cascPot queue < fuel →
      ∃ res, cascadeFuel B p rnd fuel queue acc s = some res := by
  intro fuel
  induction fuel with
  | zero =>
    intro queue acc s _ hpot
    omega
  | succ fuel ih =>
    intro queue acc s hq hpot
    cases queue with
    | nil => exact ⟨(acc, s), by simp [cascadeFuel]⟩
    | cons current rest =>
      have hcB : B ≤ current := hq current (by simp)
      have hcur : ¬ current < B := by omega
      have hrest : ∀ x ∈ rest, B ≤ x := fun x hx => hq x (by simp [hx])
      obtain ⟨hs1, hs2, hs3, hs4⟩ := split_size_bounds p rnd current (by omega)
      have hadd := split_size_add p rnd current
      have hpot1 : cascPot (current :: rest) =
          (2 * current - 1).toNat + cascPot rest := cascPot_cons _ _
      have hkey : (2 * (split_size p rnd current).1 - 1).toNat +
          (2 * (split_size p rnd current).2 - 1).toNat + 1 =
          (2 * current - 1).toNat := by omega
      by_cases hc1 : B ≤ (split_size p rnd current).1 <;>
        by_cases hc2 : B ≤ (split_size p rnd current).2
      · have hinv : ∀ x ∈ (rest ++ [(split_size p rnd current).1]) ++
            [(split_size p rnd current).2], B ≤ x := by
          intro x hx
          simp at hx
          rcases hx with hx | hx | hx
          · exact hrest x hx
          · omega
          · omega
        have hpot2 : cascPot ((rest ++ [(split_size p rnd current).1]) ++
            [(split_size p rnd current).2]) < fuel := by
          rw [cascPot_append_single, cascPot_append_single]
          omega
        obtain ⟨res, hres⟩ := ih _ acc (s + 1) hinv hpot2
        refine ⟨res, ?_⟩
        rw [show cascadeFuel B p rnd (fuel + 1) (current :: rest) acc s =
            cascadeFuel B p rnd fuel
              ((rest ++ [(split_size p rnd current).1]) ++ [(split_size p rnd current).2])
              acc (s + 1) by
          simp [cascadeFuel, hcur, hc1, hc2]]
        exact hres
      · have hinv : ∀ x ∈ rest ++ [(split_size p rnd current).1], B ≤ x := by
          intro x hx
          simp at hx
          rcases hx with hx | hx
          · exact hrest x hx
          · omega
        have hpot2 : cascPot (rest ++ [(split_size p rnd current).1]) < fuel := by
          rw [cascPot_append_single]
          omega
        obtain ⟨res, hres⟩ := ih _ (acc ++ [(split_size p rnd current).2]) (s + 1) hinv hpot2
        refine ⟨res, ?_⟩
        rw [show cascadeFuel B p rnd (fuel + 1) (current :: rest) acc s =
            cascadeFuel B p rnd fuel (rest ++ [(split_size p rnd current).1])
              (acc ++ [(split_size p rnd current).2]) (s + 1) by
          simp [cascadeFuel, hcur, hc1, hc2]]
        exact hres
      · have hinv : ∀ x ∈ rest ++ [(split_size p rnd current).2], B ≤ x := by
          intro x hx
          simp at hx
          rcases hx with hx | hx
          · exact hrest x hx
          · omega
        have hpot2 : cascPot (rest ++ [(split_size p rnd current).2]) < fuel := by
          rw [cascPot_append_single]
          omega
        obtain ⟨res, hres⟩ := ih _ (acc ++ [(split_size p rnd current).1]) (s + 1) hinv hpot2
        refine ⟨res, ?_⟩
        rw [show cascadeFuel B p rnd (fuel + 1) (current :: rest) acc s =
            cascadeFuel B p rnd fuel (rest ++ [(split_size p rnd current).2])
              (acc ++ [(split_size p rnd current).1]) (s + 1) by
          simp [cascadeFuel, hcur, hc1, hc2]]
        exact hres
      · have hpot2 : cascPot rest < fuel := by omega
        obtain ⟨res, hres⟩ := ih rest
          ((acc ++ [(split_size p rnd current).1]) ++ [(split_size p rnd current).2])
          (s + 1) hrest hpot2
        refine ⟨res, ?_⟩
        rw [show cascadeFuel B p rnd (fuel + 1) (current :: rest) acc s =
            cascadeFuel B p rnd fuel rest
              ((acc ++ [(split_size p rnd current).1]) ++ [(split_size p rnd current).2])
              (s + 1) by
          simp [cascadeFuel, hcur, hc1, hc2]]
        exact hres

theorem insert_deferred_sum (B : ℤ) (p : ℚ) (rnd : Rounding) (fuel : ℕ)
    (occ r : ℤ) (L : List ℤ) (k : ℕ)
    (h : insert_deferred B p rnd fuel occ r = some (L, k)) :
    L.sum = occ + r := by
  unfold insert_deferred at h
  by_cases hlt : occ + r < B
  · rw [if_pos hlt] at h
    simp at h
    simp [← h.1]
  · rw [if_neg hlt] at h
    have := cascadeFuel_sum B p rnd fuel [occ + r] [] 0 L k h
    simpa using this

theorem insert_deferred_ne_nil (B : ℤ) (p : ℚ) (rnd : Rounding) (fuel : ℕ)
    (occ r : ℤ) (L : List ℤ) (k : ℕ)
    (h : insert_deferred B p rnd fuel occ r = some (L, k)) : L ≠ [] := by
  unfold insert_deferred at h
  by_cases hlt : occ + r < B
  · rw [if_pos hlt] at h
    simp at h
    simp [← h.1]
  · rw [if_neg hlt] at h
    obtain ⟨t, ht, htne⟩ := cascadeFuel_extends B p rnd fuel [occ + r] [] 0 L k h
    rw [ht]
    simpa using htne (by simp)

theorem insert_deferred_lt_B (B : ℤ) (p : ℚ) (rnd : Rounding) (fuel : ℕ)
    (occ r : ℤ) (L : List ℤ) (k : ℕ)
    (h : insert_deferred B p rnd fuel occ r = some (L, k)) :
    ∀ x ∈ L, x < B := by
  unfold insert_deferred at h
  by_cases hlt : occ + r < B
  · rw [if_pos hlt] at h
    simp at h
    intro x hx
    rw [← h.1] at hx
    simp at hx
    omega
  · rw [if_neg hlt] at h
    exact cascadeFuel_lt_B B p rnd fuel [occ + r] [] 0 L k h (by simp)

theorem insert_deferred_pos (B : ℤ) (p : ℚ) (rnd : Rounding) (fuel : ℕ)
    (occ r : ℤ) (L : List ℤ) (k : ℕ) (hB : 2 ≤ B) (hocc : 0 ≤ occ) (hr : 1 ≤ r)
    (h : insert_deferred B p rnd fuel occ r = some (L, k)) :
    ∀ x ∈ L, 1 ≤ x := by
  unfold insert_deferred at h
  by_cases hlt : occ + r < B
  · rw [if_pos hlt] at h
    simp at h
    intro x hx
    rw [← h.1] at hx
    simp at hx
    omega
  · rw [if_neg hlt] at h
    exact cascadeFuel_pos B p rnd hB fuel [occ + r] [] 0 L k h
      (by intro x hx; simp at hx; omega) (by simp)

theorem insert_deferred_enough (B : ℤ) (p : ℚ) (rnd : Rounding) (fuel : ℕ)
    (occ r : ℤ) (hB : 2 ≤ B) (hocc : 0 ≤ occ) (hoccB : occ ≤ B - 1) (hr : 1 ≤ r)
    (hfuel : (2 * (B + r)).toNat ≤ fuel) :
    ∃ res, insert_deferred B p rnd fuel occ r = some res := by
  unfold insert_deferred
  by_cases hlt : occ + r < B
  · exact ⟨([occ + r], 0), by rw [if_pos hlt]⟩
  · rw [if_neg hlt]
    refine cascadeFuel_enough B p rnd hB fuel [occ + r] [] 0 ?_ ?_
    · intro x hx
      simp at hx
      omega
    · have : cascPot [occ + r] = (2 * (occ + r) - 1).toNat := by
        simp [cascPot]
      rw [this]
      omega

/-! ## Generic position-based insertion-loop lemmas -/

theorem splitLoop_sum (B : ℤ) (choose : ℤ → ℤ × ℤ)
    (hadd : ∀ e, (choose e).1 + (choose e).2 = B) :
    ∀ fuel cur pos rem acc s L k,
      splitLoop B choose fuel cur pos rem acc s = some (L, k) →
      L.sum = acc.sum + cur + rem := by
  intro fuel
  induction fuel with
  | zero =>
    intro cur pos rem acc s L k h
    simp [splitLoop] at h
  | succ fuel ih =>
    intro cur pos rem acc s L k h
    simp only [splitLoop] at h
    by_cases h1 : rem < B - cur
    · rw [if_pos h1] at h
      simp at h
      simp [← h.1, List.sum_append]
      ring
    · rw [if_neg h1] at h
      by_cases h2 : rem = B - cur
      · rw [if_pos h2] at h
        by_cases h3 : pos + (B - cur) ≤ (choose (pos + (B - cur))).1
        · rw [if_pos h3] at h
          simp at h
          have := hadd (pos + (B - cur))
          simp [← h.1, List.sum_append]
          omega
        · rw [if_neg h3] at h
          have := ih _ _ _ _ _ L k h
          have ha := hadd (pos + (B - cur))
          simp [List.sum_append] at this
          omega
      · rw [if_neg h2] at h
        by_cases h3 : pos + (B - cur) ≤ (choose (pos + (B - cur))).1
        · rw [if_pos h3] at h
          have := ih _ _ _ _ _ L k h
          have ha := hadd (pos + (B - cur))
          simp [List.sum_append] at this
          omega
        · rw [if_neg h3] at h
          have := ih _ _ _ _ _ L k h
          have ha := hadd (pos + (B - cur))
          simp [List.sum_append] at this
          omega

theorem splitLoop_extends (B : ℤ) (choose : ℤ → ℤ × ℤ) :
    ∀ fuel cur pos rem acc s L k,
      splitLoop B choose fuel cur pos rem acc s = some (L, k) →
      ∃ t, L = acc ++ t ∧ t ≠ [] := by
  intro fuel
  induction fuel with
  | zero =>
    intro cur pos rem acc s L k h
    simp [splitLoop] at h
  | succ fuel ih =>
    intro cur pos rem acc s L k h
    simp only [splitLoop] at h
    by_cases h1 : rem < B - cur
    · rw [if_pos h1] at h
      simp at h
      exact ⟨[cur + rem], by simp [← h.1], by simp⟩
    · rw [if_neg h1] at h
      by_cases h2 : rem = B - cur
      · rw [if_pos h2] at h
        by_cases h3 : pos + (B - cur) ≤ (choose (pos + (B - cur))).1
        · rw [if_pos h3] at h
          simp at h
          refine ⟨[(choose (pos + (B - cur))).1, (choose (pos + (B - cur))).2],
            by simp [← h.1], by simp⟩
        · rw [if_neg h3] at h
          obtain ⟨t, ht, _⟩ := ih _ _ _ _ _ L k h
          exact ⟨(choose (pos + (B - cur))).1 :: t, by simp [ht], by simp⟩
      · rw [if_neg h2] at h
        by_cases h3 : pos + (B - cur) ≤ (choose (pos + (B - cur))).1
        · rw [if_pos h3] at h
          obtain ⟨t, ht, _⟩ := ih _ _ _ _ _ L k h
          exact ⟨(choose (pos + (B - cur))).2 :: t, by simp [ht], by simp⟩
        · rw [if_neg h3] at h
          obtain ⟨t, ht, _⟩ := ih _ _ _ _ _ L k h
          exact ⟨(choose (pos + (B - cur))).1 :: t, by simp [ht], by simp⟩

theorem splitLoop_le (B : ℤ) (choose : ℤ → ℤ × ℤ)
    (hub : ∀ e, (choose e).1 ≤ B - 1 ∧ (choose e).2 ≤ B - 1) :
    ∀ fuel cur pos rem acc s L k,
      splitLoop B choose fuel cur pos rem acc s = some (L, k) →
      (∀ x ∈ acc, x ≤ B - 1) → ∀ x ∈ L, x ≤ B - 1 := by
  intro fuel
  induction fuel with
  | zero =>
    intro cur pos rem acc s L k h
    simp [splitLoop] at h
  | succ fuel ih =>
    intro cur pos rem acc s L k h hacc
    simp only [splitLoop] at h
    by_cases h1 : rem < B - cur
    · rw [if_pos h1] at h
      simp at h
      intro x hx
      rw [← h.1] at hx
      simp at hx
      rcases hx with hx | hx
      · exact hacc x hx
      · omega
    · rw [if_neg h1] at h
      by_cases h2 : rem = B - cur
      · rw [if_pos h2] at h
        by_cases h3 : pos + (B - cur) ≤ (choose (pos + (B - cur))).1
        · rw [if_pos h3] at h
          simp at h
          intro x hx
          rw [← h.1] at hx
          simp at hx
          have := hub (pos + (B - cur))
          rcases hx with hx | hx | hx
          · exact hacc x hx
          · omega
          · omega
        · rw [if_neg h3] at h
          refine ih _ _ _ _ _ L k h ?_
          intro x hx
          simp at hx
          have := hub (pos + (B - cur))
          rcases hx with hx | hx
          · exact hacc x hx
          · omega
      · rw [if_neg h2] at h
        by_cases h3 : pos + (B - cur) ≤ (choose (pos + (B - cur))).1
        · rw [if_pos h3] at h
          refine ih _ _ _ _ _ L k h ?_
          intro x hx
          simp at hx
          have := hub (pos + (B - cur))
          rcases hx with hx | hx
          · exact hacc x hx
          · omega
        · rw [if_neg h3] at h
          refine ih _ _ _ _ _ L k h ?_
          intro x hx
          simp at hx
          have := hub (pos + (B - cur))
          rcases hx with hx | hx
          · exact hacc x hx
          · omega

theorem splitLoop_pos (B : ℤ) (choose : ℤ → ℤ × ℤ)
    (hlb : ∀ e, 1 ≤ (choose e).1 ∧ 1 ≤ (choose e).2) :
    ∀ fuel cur pos rem acc s L k,
      splitLoop B choose fuel cur pos rem acc s = some (L, k) →
      0 ≤ cur → 0 ≤ rem → 1 ≤ cur + rem →
      (∀ x ∈ acc, 1 ≤ x) → ∀ x ∈ L, 1 ≤ x := by
  intro fuel
  induction fuel with
  | zero =>
    intro cur pos rem acc s L k h
    simp [splitLoop] at h
  | succ fuel ih =>
    intro cur pos rem acc s L k h hcur hrem hsum hacc
    simp only [splitLoop] at h
    by_cases h1 : rem < B - cur
    · rw [if_pos h1] at h
      simp at h
      intro x hx
      rw [← h.1] at hx
      simp at hx
      rcases hx with hx | hx
      · exact hacc x hx
      · omega
    · rw [if_neg h1] at h
      have hc := hlb (pos + (B - cur))
      by_cases h2 : rem = B - cur
      · rw [if_pos h2] at h
        by_cases h3 : pos + (B - cur) ≤ (choose (pos + (B - cur))).1
        · rw [if_pos h3] at h
          simp at h
          intro x hx
          rw [← h.1] at hx
          simp at hx
          rcases hx with hx | hx | hx
          · exact hacc x hx
          · omega
          · omega
        · rw [if_neg h3] at h
          refine ih _ _ _ _ _ L k h (by omega) (by omega) (by omega) ?_
          intro x hx
          simp at hx
          rcases hx with hx | hx
          · exact hacc x hx
          · omega
      · rw [if_neg h2] at h
        by_cases h3 : pos + (B - cur) ≤ (choose (pos + (B - cur))).1
        · rw [if_pos h3] at h
          refine ih _ _ _ _ _ L k h (by omega) (by omega) (by omega) ?_
          intro x hx
          simp at hx
          rcases hx with hx | hx
          · exact hacc x hx
          · omega
        · rw [if_neg h3] at h
          refine ih _ _ _ _ _ L k h (by omega) (by omega) (by omega) ?_
          intro x hx
          simp at hx
          rcases hx with hx | hx
          · exact hacc x hx
          · omega

theorem splitLoop_enough (B : ℤ) (choose : ℤ → ℤ × ℤ)
    (hbnd : ∀ e, 1 ≤ (choose e).1 ∧ (choose e).1 ≤ B - 1 ∧
      1 ≤ (choose e).2 ∧ (choose e).2 ≤ B - 1) :
    ∀ fuel cur pos rem acc s, cur < B → rem.toNat + 2 ≤ fuel →
      ∃ res, splitLoop B choose fuel cur pos rem acc s = some res := by
  intro fuel
  induction fuel with
  | zero =>
    intro cur pos rem acc s _ hfuel
    omega
  | succ fuel ih =>
    intro cur pos rem acc s hcur hfuel
    simp only [splitLoop]
    by_cases h1 : rem < B - cur
    · exact ⟨_, by rw [if_pos h1]⟩
    · rw [if_neg h1]
      have hc := hbnd (pos + (B - cur))
      by_cases h2 : rem = B - cur
      · rw [if_pos h2]
        by_cases h3 : pos + (B - cur) ≤ (choose (pos + (B - cur))).1
        · exact ⟨_, by rw [if_pos h3]⟩
        · rw [if_neg h3]
          exact ih _ _ 0 _ (s + 1) (by omega) (by omega)
      · rw [if_neg h2]
        by_cases h3 : pos + (B - cur) ≤ (choose (pos + (B - cur))).1
        · rw [if_pos h3]
          exact ih _ _ (rem - (B - cur)) _ (s + 1) (by omega) (by omega)
        · rw [if_neg h3]
          exact ih _ _ (rem - (B - cur)) _ (s + 1) (by omega) (by omega)

/-! ## Dispatch lemmas -/

theorem ofOpt_ok {α : Type} {o : Option α} {a : α} (h : ofOpt o = .ok a) :
    o = some a := by
  cases o with
  | none => simp [ofOpt] at h
  | some b => simpa [ofOpt] using h

theorem dispatch_invalid (B : ℤ) (method : String) (p : ℚ) (rnd : Rounding)
    (fuel : ℕ) (occ pos r : ℤ) (hm : ¬ validMethod method) :
    dispatch B method p rnd fuel occ pos r = .err (unknownMethodMsg method) := by
  unfold validMethod at hm
  push_neg at hm
  obtain ⟨m1, m2, m3, m4⟩ := hm
  simp [dispatch, m1, m2, m3, m4]

theorem dispatch_ok_sum (B : ℤ) (method : String) (p : ℚ) (rnd : Rounding)
    (fuel : ℕ) (occ pos r : ℤ) (res : List ℤ × ℕ)
    (h : dispatch B method p rnd fuel occ pos r = .ok res) :
    res.1.sum = occ + r := by
  obtain ⟨L, k⟩ := res
  unfold dispatch at h
  by_cases m1 : method = "deferred"
  · rw [if_pos m1] at h
    exact insert_deferred_sum B p rnd fuel occ r L k (ofOpt_ok h)
  · rw [if_neg m1] at h
    by_cases m2 : method = "adaptive"
    · rw [if_pos m2] at h
      have := splitLoop_sum B (adaptiveChoice p B) (fun e => adaptiveChoice_add p B e)
        fuel occ pos r [] 0 L k (ofOpt_ok h)
      simpa using this
    · rw [if_neg m2] at h
      by_cases m3 : method = "adaptive2"
      · rw [if_pos m3] at h
        have := splitLoop_sum B (adaptive2Choice p B) (fun e => adaptive2Choice_add p B e)
          fuel occ pos r [] 0 L k (ofOpt_ok h)
        simpa using this
      · rw [if_neg m3] at h
        by_cases m4 : method = "immediately"
        · rw [if_pos m4] at h
          have := splitLoop_sum B (fun _ => split_size p rnd B)
            (fun _ => split_size_add p rnd B) fuel occ pos r [] 0 L k (ofOpt_ok h)
          simpa using this
        · rw [if_neg m4] at h
          simp at h

theorem dispatch_ok_ne_nil (B : ℤ) (method : String) (p : ℚ) (rnd : Rounding)
    (fuel : ℕ) (occ pos r : ℤ) (res : List ℤ × ℕ)
    (h : dispatch B method p rnd fuel occ pos r = .ok res) :
    res.1 ≠ [] := by
  obtain ⟨L, k⟩ := res
  unfold dispatch at h
  by_cases m1 : method = "deferred"
  · rw [if_pos m1] at h
    exact insert_deferred_ne_nil B p rnd fuel occ r L k (ofOpt_ok h)
  · rw [if_neg m1] at h
    by_cases m2 : method = "adaptive"
    · rw [if_pos m2] at h
      obtain ⟨t, ht, htne⟩ := splitLoop_extends B (adaptiveChoice p B)
        fuel occ pos r [] 0 L k (ofOpt_ok h)
      simp [ht, htne]
    · rw [if_neg m2] at h
      by_cases m3 : method = "adaptive2"
      · rw [if_pos m3] at h
        obtain ⟨t, ht, htne⟩ := splitLoop_extends B (adaptive2Choice p B)
          fuel occ pos r [] 0 L k (ofOpt_ok h)
        simp [ht, htne]
      · rw [if_neg m3] at h
        by_cases m4 : method = "immediately"
        · rw [if_pos m4] at h
          obtain ⟨t, ht, htne⟩ := splitLoop_extends B (fun _ => split_size p rnd B)
            fuel occ pos r [] 0 L k (ofOpt_ok h)
          simp [ht, htne]
        · rw [if_neg m4] at h
          simp at h

theorem dispatch_ok_le (B : ℤ) (method : String) (p : ℚ) (rnd : Rounding)
    (fuel : ℕ) (occ pos r : ℤ) (res : List ℤ × ℕ) (hB : 2 ≤ B)
    (h : dispatch B method p rnd fuel occ pos r = .ok res) :
    ∀ x ∈ res.1, x ≤ B - 1 := by
  obtain ⟨L, k⟩ := res
  unfold dispatch at h
  by_cases m1 : method = "deferred"
  · rw [if_pos m1] at h
    intro x hx
    have := insert_deferred_lt_B B p rnd fuel occ r L k (ofOpt_ok h) x hx
    omega
  · rw [if_neg m1] at h
    by_cases m2 : method = "adaptive"
    · rw [if_pos m2] at h
      exact splitLoop_le B (adaptiveChoice p B)
        (fun e => by
          have := adaptiveChoice_bounds p B e hB
          exact ⟨this.2.1, this.2.2.2⟩)
        fuel occ pos r [] 0 L k (ofOpt_ok h) (by simp)
    · rw [if_neg m2] at h
      by_cases m3 : method = "adaptive2"
      · rw [if_pos m3] at h
        exact splitLoop_le B (adaptive2Choice p B)
          (fun e => by
            have := adaptive2Choice_bounds p B e hB
            exact ⟨this.2.1, this.2.2.2⟩)
          fuel occ pos r [] 0 L k (ofOpt_ok h) (by simp)
      · rw [if_neg m3] at h
        by_cases m4 : method = "immediately"
        · rw [if_pos m4] at h
          exact splitLoop_le B (fun _ => split_size p rnd B)
            (fun _ => by
              have := split_size_bounds p rnd B hB
              exact ⟨this.2.1, this.2.2.2⟩)
            fuel occ pos r [] 0 L k (ofOpt_ok h) (by simp)
        · rw [if_neg m4] at h
          simp at h

theorem dispatch_ok_pos (B : ℤ) (method : String) (p : ℚ) (rnd : Rounding)
    (fuel : ℕ) (occ pos r : ℤ) (res : List ℤ × ℕ)
    (hB : 2 ≤ B) (hocc : 0 ≤ occ) (hr : 1 ≤ r)
    (h : dispatch B method p rnd fuel occ pos r = .ok res) :
    ∀ x ∈ res.1, 1 ≤ x := by
  obtain ⟨L, k⟩ := res
  unfold dispatch at h
  by_cases m1 : method = "deferred"
  · rw [if_pos m1] at h
    exact insert_deferred_pos B p rnd fuel occ r L k hB hocc hr (ofOpt_ok h)
  · rw [if_neg m1] at h
    by_cases m2 : method = "adaptive"
    · rw [if_pos m2] at h
      exact splitLoop_pos B (adaptiveChoice p B)
        (fun e => by
          have := adaptiveChoice_bounds p B e hB
          exact ⟨this.1, this.2.2.1⟩)
        fuel occ pos r [] 0 L k (ofOpt_ok h) hocc (by omega) (by omega) (by simp)
    · rw [if_neg m2] at h
      by_cases m3 : method = "adaptive2"
      · rw [if_pos m3] at h
        exact splitLoop_pos B (adaptive2Choice p B)
          (fun e => by
            have := adaptive2Choice_bounds p B e hB
            exact ⟨this.1, this.2.2.1⟩)
          fuel occ pos r [] 0 L k (ofOpt_ok h) hocc (by omega) (by omega) (by simp)
      · rw [if_neg m3] at h
        by_cases m4 : method = "immediately"
        · rw [if_pos m4] at h
          exact splitLoop_pos B (fun _ => split_size p rnd B)
            (fun _ => by
              have := split_size_bounds p rnd B hB
              exact ⟨this.1, this.2.2.1⟩)
            fuel occ pos r [] 0 L k (ofOpt_ok h) hocc (by omega) (by omega) (by simp)
        · rw [if_neg m4] at h
          simp at h

theorem dispatch_some (B : ℤ) (method : String) (p : ℚ) (rnd : Rounding)
    (fuel : ℕ) (occ pos r : ℤ) (hv : validMethod method)
    (hB : 2 ≤ B) (hocc : 0 ≤ occ) (hoccB : occ ≤ B - 1) (hr : 1 ≤ r)
    (hfuel : (2 * (B + r)).toNat ≤ fuel) :
    ∃ res, dispatch B method p rnd fuel occ pos r = .ok res := by
  have hfuel2 : r.toNat + 2 ≤ fuel := by omega
  rcases hv with m1 | m2 | m3 | m4
  · obtain ⟨res, hres⟩ := insert_deferred_enough B p rnd fuel occ r hB hocc hoccB hr hfuel
    exact ⟨res, by simp [dispatch, m1, ofOpt, hres]⟩
  · have hne : "adaptive" ≠ "deferred" := by decide
    obtain ⟨res, hres⟩ := splitLoop_enough B (adaptiveChoice p B)
      (fun e => adaptiveChoice_bounds p B e hB) fuel occ pos r [] 0 (by omega) hfuel2
    refine ⟨res, ?_⟩
    rw [show dispatch B method p rnd fuel occ pos r =
        ofOpt (insert_adaptive B p rnd fuel occ pos r) by
      simp [dispatch, m2]]
    simp [insert_adaptive, hres, ofOpt]
  · obtain ⟨res, hres⟩ := splitLoop_enough B (adaptive2Choice p B)
      (fun e => adaptive2Choice_bounds p B e hB) fuel occ pos r [] 0 (by omega) hfuel2
    refine ⟨res, ?_⟩
    rw [show dispatch B method p rnd fuel occ pos r =
        ofOpt (insert_adaptive2 B p rnd fuel occ pos r) by
      simp [dispatch, m3]]
    simp [insert_adaptive2, hres, ofOpt]
  · obtain ⟨res, hres⟩ := splitLoop_enough B (fun _ => split_size p rnd B)
      (fun _ => split_size_bounds p rnd B hB) fuel occ pos r [] 0 (by omega) hfuel2
    refine ⟨res, ?_⟩
    rw [show dispatch B method p rnd fuel occ pos r =
        ofOpt (insert_immediately B p rnd fuel occ pos r) by
      simp [dispatch, m4]]
    simp [insert_immediately, hres, ofOpt]

/-! ## Run invariants -/

theorem simStep_ok_elim (B r : ℤ) (method : String) (p : ℚ) (rnd : Rounding)
    (fuel : ℕ) (orv : ℤ × ℕ) (st st2 : SimState)
    (h : simStep B r method p rnd fuel orv st = .ok st2) :
    ∃ res, dispatch B method p rnd fuel (sample_block st.hist orv.1 orv.2).1
        (sample_block st.hist orv.1 orv.2).2 r = .ok res ∧
      st2 = { hist := mergeHist (decHist st.hist (sample_block st.hist orv.1 orv.2).1) res.1,
              nblocks := st.nblocks - 1 + res.1.length,
              totalKeys := st.totalKeys + r,
              inserts := st.inserts + r,
              splits := st.splits + res.2,
              blocksTally := st.blocksTally +
                sumC (mergeHist (decHist st.hist (sample_block st.hist orv.1 orv.2).1) res.1) * r,
              elemTally := st.elemTally + (st.totalKeys + r) * r,
              capacityTally := st.capacityTally +
                B * sumC (mergeHist (decHist st.hist (sample_block st.hist orv.1 orv.2).1) res.1) * r } := by
  simp only [simStep] at h
  cases hd : dispatch B method p rnd fuel (sample_block st.hist orv.1 orv.2).1
      (sample_block st.hist orv.1 orv.2).2 r with
  | ok res =>
    rw [hd] at h
    exact ⟨res, rfl, (SimOutcome.ok.inj h).symm⟩
  | err m =>
    rw [hd] at h
    exact absurd h (by simp)
  | outOfFuel =>
    rw [hd] at h
    exact absurd h (by simp)

theorem simStep_invA (B r : ℤ) (method : String) (p : ℚ) (rnd : Rounding)
    (fuel : ℕ) (orv : ℤ × ℕ) (st st2 : SimState) (k : ℕ)
    (hI : InvA r k st) (h : simStep B r method p rnd fuel orv st = .ok st2) :
    InvA r (k + 1) st2 := by
  obtain ⟨res, hd, hst2⟩ := simStep_ok_elim B r method p rnd fuel orv st st2 h
  have hkey := sample_block_mem st.hist orv.1 orv.2 hI.ne
  have hsum := dispatch_ok_sum B method p rnd fuel _ _ r res hd
  have hnen := dispatch_ok_ne_nil B method p rnd fuel _ _ r res hd
  have hlen : 1 ≤ (res.1.length : ℤ) := by
    have := List.length_pos.2 hnen
    omega
  subst hst2
  constructor
  · exact mergeHist_ne_nil _ res.1 hnen
  · exact mergeHist_countPos _ res.1
      (decHist_countPos st.hist _ hI.cpos)
  · rw [sumSC_merge, sumSC_dec st.hist _ hkey, hI.conserve, hsum]
    push_cast
    ring
  · rw [sumC_merge, sumC_dec st.hist _ hkey, hI.counts]
  · rw [hI.inserts]
    push_cast
    ring
  · rw [hI.tkeys]
    push_cast
    ring
  · have := hI.nb1
    simp
    omega

theorem runBatches_invA (B r : ℤ) (method : String) (p : ℚ) (rnd : Rounding)
    (fuel : ℕ) (oracle : ℕ → ℤ × ℕ) :
    ∀ k st, runBatches B r method p rnd fuel oracle k = .ok st → InvA r k st := by
  intro k
  induction k with
  | zero =>
    intro st h
    simp [runBatches] at h
    rw [← h]
    constructor <;> simp [initState, sumSC, sumC]
  | succ k ih =>
    intro st h
    simp only [runBatches] at h
    cases hr : runBatches B r method p rnd fuel oracle k with
    | ok st1 =>
      rw [hr] at h
      exact simStep_invA B r method p rnd fuel (oracle k) st1 st k (ih st1 hr) h
    | err m =>
      rw [hr] at h
      exact absurd h (by simp)
    | outOfFuel =>
      rw [hr] at h
      exact absurd h (by simp)

theorem simStep_invB (B r : ℤ) (method : String) (p : ℚ) (rnd : Rounding)
    (fuel : ℕ) (orv : ℤ × ℕ) (st st2 : SimState) (k : ℕ)
    (hB : 2 ≤ B) (hr : 1 ≤ r)
    (hI : InvB B r k st) (h : simStep B r method p rnd fuel orv st = .ok st2) :
    InvB B r (k + 1) st2 := by
  obtain ⟨res, hd, hst2⟩ := simStep_ok_elim B r method p rnd fuel orv st st2 h
  have hkey := sample_block_mem st.hist orv.1 orv.2 hI.ne
  obtain ⟨e0, he0, hfst0⟩ := List.mem_map.1 hkey
  have hoccLB : 0 ≤ (sample_block st.hist orv.1 orv.2).1 := by
    rw [← hfst0]
    exact hI.keyLB e0 he0
  have hoccUB : (sample_block st.hist orv.1 orv.2).1 ≤ B - 1 := by
    rw [← hfst0]
    exact hI.keyUB e0 he0
  have hsum := dispatch_ok_sum B method p rnd fuel _ _ r res hd
  have hnen := dispatch_ok_ne_nil B method p rnd fuel _ _ r res hd
  have hble := dispatch_ok_le B method p rnd fuel _ _ r res hB hd
  have hbpos := dispatch_ok_pos B method p rnd fuel _ _ r res hB hoccLB hr hd
  have hlen : 1 ≤ (res.1.length : ℤ) := by
    have := List.length_pos.2 hnen
    omega
  have hne2 : mergeHist (decHist st.hist (sample_block st.hist orv.1 orv.2).1) res.1 ≠ [] :=
    mergeHist_ne_nil _ res.1 hnen
  have hcpos2 : ∀ e ∈ mergeHist (decHist st.hist (sample_block st.hist orv.1 orv.2).1) res.1,
      1 ≤ e.2 :=
    mergeHist_countPos _ res.1 (decHist_countPos st.hist _ hI.cpos)
  have hub2 : ∀ e ∈ mergeHist (decHist st.hist (sample_block st.hist orv.1 orv.2).1) res.1,
      e.1 ≤ B - 1 :=
    mergeHist_keyPred (fun x => x ≤ B - 1) _ res.1
      (decHist_keyPred (fun x => x ≤ B - 1) st.hist _ hI.keyUB) hble
  have hcons2 : sumSC (mergeHist (decHist st.hist (sample_block st.hist orv.1 orv.2).1) res.1) =
      ((k : ℤ) + 1) * r := by
    rw [sumSC_merge, sumSC_dec st.hist _ hkey, hI.conserve, hsum]
    ring
  have hC1 : 1 ≤ sumC (mergeHist (decHist st.hist (sample_block st.hist orv.1 orv.2).1) res.1) :=
    sumC_pos _ hne2 hcpos2
  have hscle := sumSC_le_of_bounds
    (mergeHist (decHist st.hist (sample_block st.hist orv.1 orv.2).1) res.1) B hub2 hcpos2
  have hkr1 : (1 : ℤ) ≤ ((k : ℤ) + 1) * r := by
    have hk0 : (0 : ℤ) ≤ (k : ℤ) := Int.ofNat_nonneg k
    nlinarith
  have hkrr1 : (1 : ℤ) ≤ (((k : ℤ) + 1) * r) * r := by nlinarith
  subst hst2
  constructor
  · exact hne2
  · exact hcpos2
  · exact mergeHist_keyPred (fun x => 0 ≤ x) _ res.1
      (decHist_keyPred (fun x => 0 ≤ x) st.hist _ hI.keyLB)
      (fun x hx => by have := hbpos x hx; omega)
  · exact hub2
  · intro _
    refine mergeHist_keyPred (fun x => 1 ≤ x) _ res.1 ?_ hbpos
    rcases Nat.eq_zero_or_pos k with hk | hk
    · have hinit := hI.init0 hk
      have hh : st.hist = [(0, 1)] := by rw [hinit]; rfl
      rw [hh]
      have hkey0 : (sample_block [(0, 1)] orv.1 orv.2).1 = 0 := by
        rw [hh] at hkey
        simpa using hkey
      rw [hkey0]
      simp [decHist]
    · exact decHist_keyPred (fun x => 1 ≤ x) st.hist _ (hI.keyPos (by omega))
  · intro hk
    exact absurd hk (by omega)
  · simpa using hcons2
  · rw [hI.tkeys]
    push_cast
    ring
  · have := hI.elemNN
    have htk := hI.tkeys
    simp [htk]
    nlinarith
  · have hlee := hI.elemLe
    have htk := hI.tkeys
    simp [htk]
    have hstep : ((k : ℤ) * r + r) * r ≤
        B * sumC (mergeHist (decHist st.hist (sample_block st.hist orv.1 orv.2).1) res.1) * r := by
      have h1 : ((k : ℤ) + 1) * r ≤
          (B - 1) * sumC (mergeHist (decHist st.hist (sample_block st.hist orv.1 orv.2).1) res.1) := by
        rw [← hcons2]
        exact hscle
      nlinarith
    nlinarith
  · intro _
    have := hI.elemNN
    have htk := hI.tkeys
    simp [htk]
    nlinarith

theorem runBatches_invB (B r : ℤ) (method : String) (p : ℚ) (rnd : Rounding)
    (fuel : ℕ) (oracle : ℕ → ℤ × ℕ) (hB : 2 ≤ B) (hr : 1 ≤ r) :
    ∀ k st, runBatches B r method p rnd fuel oracle k = .ok st → InvB B r k st := by
  intro k
  induction k with
  | zero =>
    intro st h
    simp [runBatches] at h
    rw [← h]
    refine ⟨by simp [initState], by simp [initState], by simp [initState], ?_,
      fun h0 => absurd h0 (by omega), fun _ => rfl, by simp [initState, sumSC],
      by simp [initState], by simp [initState], by simp [initState],
      fun h0 => absurd h0 (by omega)⟩
    intro e he
    simp [initState] at he
    rw [he]
    simp
    omega
  | succ k ih =>
    intro st h
    simp only [runBatches] at h
    cases hrb : runBatches B r method p rnd fuel oracle k with
    | ok st1 =>
      rw [hrb] at h
      exact simStep_invB B r method p rnd fuel (oracle k) st1 st k hB hr (ih st1 hrb) h
    | err m =>
      rw [hrb] at h
      exact absurd h (by simp)
    | outOfFuel =>
      rw [hrb] at h
      exact absurd h (by simp)

theorem runBatches_total (B r : ℤ) (method : String) (p : ℚ) (rnd : Rounding)
    (oracle : ℕ → ℤ × ℕ) (hv : validMethod method) (hB : 2 ≤ B) (hr : 1 ≤ r) :
    ∀ k, ∃ st, runBatches B r method p rnd (fuelF B r) oracle k = .ok st := by
  intro k
  induction k with
  | zero => exact ⟨initState, by simp [runBatches]⟩
  | succ k ih =>
    obtain ⟨st, hst⟩ := ih
    have hI := runBatches_invB B r method p rnd (fuelF B r) oracle hB hr k st hst
    have hkey := sample_block_mem st.hist (oracle k).1 (oracle k).2 hI.ne
    obtain ⟨e0, he0, hfst0⟩ := List.mem_map.1 hkey
    have hoccLB : 0 ≤ (sample_block st.hist (oracle k).1 (oracle k).2).1 := by
      rw [← hfst0]
      exact hI.keyLB e0 he0
    have hoccUB : (sample_block st.hist (oracle k).1 (oracle k).2).1 ≤ B - 1 := by
      rw [← hfst0]
      exact hI.keyUB e0 he0
    obtain ⟨res, hres⟩ := dispatch_some B method p rnd (fuelF B r)
      (sample_block st.hist (oracle k).1 (oracle k).2).1
      (sample_block st.hist (oracle k).1 (oracle k).2).2 r
      hv hB hoccLB hoccUB hr (le_refl _)
    have hrw : runBatches B r method p rnd (fuelF B r) oracle (k + 1) =
        simStep B r method p rnd (fuelF B r) (oracle k) st := by
      simp only [runBatches]
      rw [hst]
    rw [hrw]
    simp only [simStep]
    rw [hres]
    exact ⟨_, rfl⟩

theorem runBatches_invalid (B r : ℤ) (method : String) (p : ℚ) (rnd : Rounding)
    (fuel : ℕ) (oracle : ℕ → ℤ × ℕ) (hm : ¬ validMethod method) :
    ∀ k, 1 ≤ k →
      runBatches B r method p rnd fuel oracle k = .err (unknownMethodMsg method) := by
  intro k
  induction k with
  | zero => omega
  | succ k ih =>
    intro _
    rcases Nat.eq_zero_or_pos k with hk | hk
    · subst hk
      simp only [runBatches, simStep]
      rw [dispatch_invalid B method p rnd fuel _ _ r hm]
    · simp only [runBatches]
      rw [ih hk]

/-! ## Claims -/

/-- C1: histogram conservation invariant.  For every engine
parameterization, method string, oracle and fuel, at the end of every
completed batch `k` the histogram satisfies
`Σ size·count = k·r` (the effective elements inserted so far) and
`Σ count =` the total number of blocks (one initial block plus the net
blocks added by each batch's split results). -/
theorem C1_histogram_conservation (B r : ℤ) (method : String) (p : ℚ)
    (rnd : Rounding) (fuel : ℕ) (oracle : ℕ → ℤ × ℕ) (k : ℕ) :
    onOk (runBatches B r method p rnd fuel oracle k)
      (fun st => sumSC st.hist = (k : ℤ) * r ∧ sumC st.hist = st.nblocks) := by
  unfold onOk
  cases hrb : runBatches B r method p rnd fuel oracle k with
  | ok st =>
    have hI := runBatches_invA B r method p rnd fuel oracle k st hrb
    exact ⟨hI.conserve, hI.counts⟩
  | err m => trivial
  | outOfFuel => trivial

/-- C2: for every `n ≥ 2`, `p ∈ (0,1)` and rounding mode,
`split_size(n, p, rounding)` computes `raw = p·n`, applies the rounding
mode, clamps the result `k` to `[1, n-1]`, and returns `(k, n-k)` with
`1 ≤ k ≤ n-1`; both children are non-empty. -/
theorem C2_split_size_contract (n : ℤ) (p : ℚ) (rnd : Rounding)
    (hn : 2 ≤ n) (hp0 : 0 < p) (hp1 : p < 1) :
    split_size p rnd n =
      (max 1 (min (n - 1) (applyRounding rnd (p * (n : ℚ)))),
       n - max 1 (min (n - 1) (applyRounding rnd (p * (n : ℚ))))) ∧
    1 ≤ (split_size p rnd n).1 ∧ (split_size p rnd n).1 ≤ n - 1 ∧
    1 ≤ (split_size p rnd n).2 ∧ (split_size p rnd n).2 ≤ n - 1 :=
  ⟨rfl, split_size_bounds p rnd n hn⟩

/-- C2 witness: the contract at `n = 5`, `p = 1/2`, floor rounding. -/
theorem C2_witness :
    split_size (1/2) Rounding.floor 5 =
      (max 1 (min ((5 : ℤ) - 1) (applyRounding Rounding.floor ((1/2) * ((5 : ℤ) : ℚ)))),
       5 - max 1 (min ((5 : ℤ) - 1) (applyRounding Rounding.floor ((1/2) * ((5 : ℤ) : ℚ))))) ∧
    1 ≤ (split_size (1/2) Rounding.floor 5).1 ∧
    (split_size (1/2) Rounding.floor 5).1 ≤ (5 : ℤ) - 1 ∧
    1 ≤ (split_size (1/2) Rounding.floor 5).2 ∧
    (split_size (1/2) Rounding.floor 5).2 ≤ (5 : ℤ) - 1 :=
  C2_split_size_contract 5 (1/2) Rounding.floor (by decide) (by decide) (by decide)

/-- C9: `sample_block` on a non-empty histogram with non-negative keys
and positive counts returns, for a valid draw
`0 ≤ randVal < total weight`, an occupancy present in the histogram and
an offset in `[0, occupancy)`; in the degenerate zero-weight case it
returns a present occupancy, chosen as the `choice`-oracle's index
among the keys (each index below the number of keys selects exactly
that key), with offset 0. -/
theorem C9_sample_block_contract (h : List (ℤ × ℤ)) (randVal : ℤ) (choiceIdx : ℕ)
    (hne : h ≠ []) (hent : ∀ e ∈ h, 0 ≤ e.1 ∧ 1 ≤ e.2) :
    (totalWeight h ≠ 0 → 0 ≤ randVal → randVal < totalWeight h →
      (sample_block h randVal choiceIdx).1 ∈ h.map Prod.fst ∧
      0 ≤ (sample_block h randVal choiceIdx).2 ∧
      (sample_block h randVal choiceIdx).2 < (sample_block h randVal choiceIdx).1) ∧
    (totalWeight h = 0 →
      (sample_block h randVal choiceIdx).1 ∈ h.map Prod.fst ∧
      (sample_block h randVal choiceIdx).2 = 0 ∧
      ∀ i : ℕ, i < (h.map Prod.fst).length →
        (sample_block h randVal i).1 = (h.map Prod.fst).getD i 0) := by
  constructor
  · intro hw hlo hhi
    obtain ⟨s, pos, hwalk, hmem, h1, h2, h3⟩ :=
      walkSample_valid randVal h 0
        (fun e he => ⟨(hent e he).1, by have := (hent e he).2; omega⟩)
        hlo (by simpa using hhi)
    have hsb : sample_block h randVal choiceIdx = (s, pos) := by
      unfold sample_block
      rw [if_neg hw, hwalk]
    rw [hsb]
    exact ⟨hmem, h2, h3⟩
  · intro hw
    refine ⟨sample_block_mem h randVal choiceIdx hne, ?_, ?_⟩
    · unfold sample_block
      rw [if_pos hw]
    · intro i hi
      unfold sample_block
      rw [if_pos hw]
      show (h.map Prod.fst).getD (i % (h.map Prod.fst).length) 0 =
        (h.map Prod.fst).getD i 0
      have : i % (h.map Prod.fst).length = i := Nat.mod_eq_of_lt hi
      rw [this]

/-- C9 witness: the contract at the histogram `{0: 1, 3: 2}` with draw
4 and choice index 0. -/
theorem C9_witness :
    (totalWeight [((0 : ℤ), (1 : ℤ)), (3, 2)] ≠ 0 → 0 ≤ (4 : ℤ) →
      (4 : ℤ) < totalWeight [((0 : ℤ), (1 : ℤ)), (3, 2)] →
      (sample_block [((0 : ℤ), (1 : ℤ)), (3, 2)] 4 0).1 ∈
        ([((0 : ℤ), (1 : ℤ)), (3, 2)]).map Prod.fst ∧
      0 ≤ (sample_block [((0 : ℤ), (1 : ℤ)), (3, 2)] 4 0).2 ∧
      (sample_block [((0 : ℤ), (1 : ℤ)), (3, 2)] 4 0).2 <
        (sample_block [((0 : ℤ), (1 : ℤ)), (3, 2)] 4 0).1) ∧
    (totalWeight [((0 : ℤ), (1 : ℤ)), (3, 2)] = 0 →
      (sample_block [((0 : ℤ), (1 : ℤ)), (3, 2)] 4 0).1 ∈
        ([((0 : ℤ), (1 : ℤ)), (3, 2)]).map Prod.fst ∧
      (sample_block [((0 : ℤ), (1 : ℤ)), (3, 2)] 4 0).2 = 0 ∧
      ∀ i : ℕ, i < (([((0 : ℤ), (1 : ℤ)), (3, 2)]).map Prod.fst).length →
        (sample_block [((0 : ℤ), (1 : ℤ)), (3, 2)] 4 i).1 =
          (([((0 : ℤ), (1 : ℤ)), (3, 2)]).map Prod.fst).getD i 0) :=
  C9_sample_block_contract [(0, 1), (3, 2)] 4 0 (by decide) (by decide)

/-- C10: for `B ≥ 2` and `r ≥ 1`, under every method, oracle and fuel:
the histogram starts as exactly `{0: 1}`, and at the end of every
completed batch all stored counts are strictly positive and (once at
least one batch has completed) every key `x` satisfies `1 ≤ x ≤ B-1` —
no empty block and no block at or above capacity persists. -/
theorem C10_capacity_invariant (B r : ℤ) (method : String) (p : ℚ)
    (rnd : Rounding) (fuel : ℕ) (oracle : ℕ → ℤ × ℕ) (k : ℕ)
    (hB : 2 ≤ B) (hr : 1 ≤ r) :
    initState.hist = [(0, 1)] ∧
    runBatches B r method p rnd fuel oracle 0 = .ok initState ∧
    onOk (runBatches B r method p rnd fuel oracle k)
      (fun st => (∀ e ∈ st.hist, 1 ≤ e.2) ∧
        (1 ≤ k → ∀ e ∈ st.hist, 1 ≤ e.1 ∧ e.1 ≤ B - 1)) := by
  refine ⟨rfl, rfl, ?_⟩
  unfold onOk
  cases hrb : runBatches B r method p rnd fuel oracle k with
  | ok st =>
    have hI := runBatches_invB B r method p rnd fuel oracle hB hr k st hrb
    exact ⟨hI.cpos, fun hk e he => ⟨hI.keyPos hk e he, hI.keyUB e he⟩⟩
  | err m => trivial
  | outOfFuel => trivial

/-- C10 witness: the invariant for a concrete one-batch deferred run
with `B = 2`, `r = 1`. -/
theorem C10_witness :
    initState.hist = [(0, 1)] ∧
    runBatches 2 1 "deferred" (1/2) Rounding.floor 5 orc0 0 = .ok initState ∧
    onOk (runBatches 2 1 "deferred" (1/2) Rounding.floor 5 orc0 1)
      (fun st => (∀ e ∈ st.hist, 1 ≤ e.2) ∧
        (1 ≤ 1 → ∀ e ∈ st.hist, 1 ≤ e.1 ∧ e.1 ≤ 2 - 1)) :=
  C10_capacity_invariant 2 1 "deferred" (1/2) Rounding.floor 5 orc0 1
    (by decide) (by decide)

/-- For any ratio and rounding mode, `split_size` on a block of size 1
clamps to `(1, 0)`. -/
theorem split_size_one (p : ℚ) (rnd : Rounding) : split_size p rnd 1 = (1, 0) := by
  simp only [split_size]
  have h1 : max 1 (min ((1 : ℤ) - 1) (applyRounding rnd (p * ((1 : ℤ) : ℚ)))) = 1 := by
    omega
  rw [h1]
  norm_num

/-- With `B = 1`, splitting a block of size 1 yields `(1, 0)` and the
size-1 child is re-queued forever: the cascade never empties its work
queue. -/
theorem cascadeB1_none (p : ℚ) (rnd : Rounding) :
    ∀ fuel acc s, cascadeFuel 1 p rnd fuel [1] acc s = none := by
  intro fuel
  induction fuel with
  | zero =>
    intro acc s
    simp [cascadeFuel]
  | succ fuel ih =>
    intro acc s
    rw [show cascadeFuel 1 p rnd (fuel + 1) [1] acc s =
        cascadeFuel 1 p rnd fuel [1] (acc ++ [0]) (s + 1) by
      simp [cascadeFuel, split_size_one]]
    exact ih (acc ++ [0]) (s + 1)

theorem simB1_outOfFuel :
    ∀ fuel, simulate 1 1 1 "deferred" (1/2) Rounding.floor orc0 fuel = .outOfFuel := by
  intro fuel
  have h1 : insert_deferred 1 (1/2) Rounding.floor fuel 0 1 = none := by
    unfold insert_deferred
    rw [if_neg (by decide : ¬ ((0 : ℤ) + 1) < 1)]
    simpa using cascadeB1_none (1/2) Rounding.floor fuel [] 0
  have hrb : runBatches 1 1 "deferred" (1/2) Rounding.floor fuel orc0
      (Int.fdiv 1 1).toNat = .outOfFuel := by
    rw [show (Int.fdiv 1 1).toNat = 1 from by decide]
    simp only [runBatches, simStep]
    rw [show sample_block initState.hist (orc0 0).1 (orc0 0).2 = (0, 0) from by decide]
    simp only [dispatch, if_pos rfl]
    rw [h1]
    rfl
  simp only [simulate, if_neg (by decide : ¬ (1 : ℤ) < 1)]
  rw [hrb]

/-- C3 counterexample: at the entry-contract-valid input `B = 1`,
`r = 1`, `total_insertions = 1`, method `deferred`, `p = 1/2`, floor
rounding, `simulate` neither returns nor fails: the deferred cascade
re-queues the size-1 block forever, so no amount of fuel completes the
run. -/
theorem C3_counterexample :
    ¬ ∃ fuel, simulate 1 1 1 "deferred" (1/2) Rounding.floor orc0 fuel ≠
      SimOutcome.outOfFuel := by
  rintro ⟨fuel, hne⟩
  exact hne (simB1_outOfFuel fuel)

/-- C3 (amended): for `B ≥ 2` and `r ≥ 1` (the rest of the entry
contract unconstrained — any total, method string, split ratio,
rounding mode and oracle), `simulate` terminates: some fuel makes the
run complete with a result record or fail with an error. -/
theorem C3_amended_terminates (B r total : ℤ) (method : String) (p : ℚ)
    (rnd : Rounding) (oracle : ℕ → ℤ × ℕ) (hB : 2 ≤ B) (hr : 1 ≤ r) :
    ∃ fuel, simulate B r total method p rnd oracle fuel ≠ .outOfFuel := by
  by_cases hv : validMethod method
  · obtain ⟨st, hst⟩ :=
      runBatches_total B r method p rnd oracle hv hB hr (Int.fdiv total r).toNat
    refine ⟨fuelF B r, ?_⟩
    simp only [simulate, if_neg (show ¬ r < 1 by omega)]
    rw [hst]
    simp
  · refine ⟨1, ?_⟩
    simp only [simulate, if_neg (show ¬ r < 1 by omega)]
    rcases Nat.eq_zero_or_pos (Int.fdiv total r).toNat with h0 | h0
    · rw [h0]
      simp [runBatches]
    · rw [runBatches_invalid B r method p rnd 1 oracle hv _ h0]
      simp

/-- C3 witness: a concrete terminating configuration. -/
theorem C3_witness :
    ∃ fuel, simulate 2 1 2 "immediately" (1/2) Rounding.floor orc0 fuel ≠
      SimOutcome.outOfFuel :=
  C3_amended_terminates 2 1 2 "immediately" (1/2) Rounding.floor orc0
    (by decide) (by decide)

/-- C4 counterexample: with zero batches (`total_insertions < r`) the
method string is never validated — `simulate(B=2, r=1,
total_insertions=0, method="bogus")` silently returns a result record
instead of failing. -/
theorem C4_counterexample :
    simulate 2 1 0 "bogus" (1/2) Rounding.floor orc0 1 =
      SimOutcome.ok
        { method := "bogus", hist := [(0, 1)], finalBlocks := 1,
          finalFullness := 0, timeAvgFullness := 0, totalInsertions := 0,
          inserts := 0, splits := 0, B := 2, r := 1 } := by
  decide

/-- C4 (amended): for every parameterization that executes at least one
batch (`r ≤ total_insertions`, `r ≥ 1`), a method string outside
{deferred, immediately, adaptive, adaptive2} makes `simulate` fail with
the `ValueError` naming the accepted set, for every oracle and fuel;
with zero batches the method is not validated and a record is
returned. -/
theorem C4_amended_invalid_method (B r total : ℤ) (method : String) (p : ℚ)
    (rnd : Rounding) (oracle : ℕ → ℤ × ℕ) (fuel : ℕ)
    (hr : 1 ≤ r) (htot : r ≤ total) (hm : ¬ validMethod method) :
    simulate B r total method p rnd oracle fuel = .err (unknownMethodMsg method) := by
  have h1 : (1 : ℤ) ≤ Int.fdiv total r := by
    rw [Int.fdiv_eq_ediv _ (by omega)]
    have h2 : r / r ≤ total / r := Int.ediv_le_ediv (by omega) htot
    rw [Int.ediv_self (by omega : r ≠ 0)] at h2
    exact h2
  simp only [simulate, if_neg (show ¬ r < 1 by omega)]
  rw [runBatches_invalid B r method p rnd fuel oracle hm _
    (by omega : 1 ≤ (Int.fdiv total r).toNat)]

/-- C4 witness: the failure at the concrete invalid method `bogus`
with one batch. -/
theorem C4_witness :
    simulate 2 1 1 "bogus" (1/2) Rounding.floor orc0 3 =
      SimOutcome.err (unknownMethodMsg "bogus") :=
  C4_amended_invalid_method 2 1 1 "bogus" (1/2) Rounding.floor orc0 3
    (by decide) (by decide) (by unfold validMethod; decide)

theorem one_le_fdiv (r total : ℤ) (hr : 1 ≤ r) (htot : r ≤ total) :
    (1 : ℤ) ≤ Int.fdiv total r := by
  rw [Int.fdiv_eq_ediv _ (by omega)]
  have h2 : r / r ≤ total / r := Int.ediv_le_ediv (by omega) htot
  rw [Int.ediv_self (by omega : r ≠ 0)] at h2
  exact h2

/-- C5 (amended): for `B ≥ 2`, `r ≥ 1` and at least one batch
(`total_insertions ≥ r`), every successfully returned result record
has `final_fullness ∈ (0, 1]` and `time_avg_fullness ∈ (0, 1]`;  with
zero batches both are 0, and for `B = 1` runs do not complete in
general (see the C3 correction). -/
theorem C5_amended_fullness_in_unit (B r total : ℤ) (method : String) (p : ℚ)
    (rnd : Rounding) (oracle : ℕ → ℤ × ℕ) (fuel : ℕ) (rec : SimRecord)
    (hB : 2 ≤ B) (hr : 1 ≤ r) (htot : r ≤ total)
    (h : simulate B r total method p rnd oracle fuel = .ok rec) :
    0 < rec.finalFullness ∧ rec.finalFullness ≤ 1 ∧
    0 < rec.timeAvgFullness ∧ rec.timeAvgFullness ≤ 1 := by
  have hfd1 : (1 : ℤ) ≤ Int.fdiv total r := one_le_fdiv r total hr htot
  have hk1 : 1 ≤ (Int.fdiv total r).toNat := by omega
  have hfdc : (((Int.fdiv total r).toNat : ℕ) : ℤ) = Int.fdiv total r := by omega
  simp only [simulate, if_neg (show ¬ r < 1 by omega)] at h
  cases hrb : runBatches B r method p rnd fuel oracle (Int.fdiv total r).toNat with
  | ok st =>
    rw [hrb] at h
    have hrec : rec = _ := (SimOutcome.ok.inj h).symm
    have hI := runBatches_invB B r method p rnd fuel oracle hB hr _ st hrb
    have hC1 : 1 ≤ sumC st.hist := sumC_pos st.hist hI.ne hI.cpos
    have hcons : sumSC st.hist = Int.fdiv total r * r := by
      have hc := hI.conserve
      rw [hfdc] at hc
      exact hc
    have hN1 : (1 : ℤ) ≤ Int.fdiv total r * r := by nlinarith
    have hNle : Int.fdiv total r * r ≤ (B - 1) * sumC st.hist := by
      rw [← hcons]
      exact sumSC_le_of_bounds st.hist B hI.keyUB hI.cpos
    have hNltB : Int.fdiv total r * r < B * sumC st.hist := by nlinarith
    have helem1 : 1 ≤ st.elemTally := hI.elemPos hk1
    have helemle := hI.elemLe
    have hff : rec.finalFullness =
        if 0 < sumC st.hist
        then ((Int.fdiv total r * r : ℤ) : ℚ) / ((B : ℚ) * ((sumC st.hist : ℤ) : ℚ))
        else 0 := by
      rw [hrec]
    have hta : rec.timeAvgFullness =
        if 0 < st.capacityTally
        then ((st.elemTally : ℤ) : ℚ) / ((st.capacityTally : ℤ) : ℚ)
        else 0 := by
      rw [hrec]
    rw [hff, hta, if_pos (show (0 : ℤ) < sumC st.hist by omega),
      if_pos (show (0 : ℤ) < st.capacityTally by omega)]
    have hBQ : (0 : ℚ) < (B : ℚ) * ((sumC st.hist : ℤ) : ℚ) := by
      apply mul_pos
      · exact_mod_cast (show (0 : ℤ) < B by omega)
      · exact_mod_cast (show (0 : ℤ) < sumC st.hist by omega)
    have hcapQ : (0 : ℚ) < ((st.capacityTally : ℤ) : ℚ) := by
      exact_mod_cast (show (0 : ℤ) < st.capacityTally by omega)
    refine ⟨?_, ?_, ?_, ?_⟩
    · apply div_pos ?_ hBQ
      exact_mod_cast (show (0 : ℤ) < Int.fdiv total r * r by omega)
    · rw [div_le_one hBQ]
      exact_mod_cast le_of_lt hNltB
    · apply div_pos ?_ hcapQ
      exact_mod_cast (show (0 : ℤ) < st.elemTally by omega)
    · rw [div_le_one hcapQ]
      exact_mod_cast helemle
  | err m =>
    rw [hrb] at h
    exact absurd h (by simp)
  | outOfFuel =>
    rw [hrb] at h
    exact absurd h (by simp)

/-- C5 counterexample: at the valid parameterization `B = 2`, `r = 1`,
`total_insertions = 0` the run completes and returns
`final_fullness = 0` and `time_avg_fullness = 0`, not in `(0, 1]`. -/
theorem C5_counterexample :
    ∃ rec, simulate 2 1 0 "deferred" (1/2) Rounding.floor orc0 1 =
      SimOutcome.ok rec ∧
      ¬ (0 < rec.finalFullness) ∧ ¬ (0 < rec.timeAvgFullness) := by
  refine ⟨{ method := "deferred", hist := [(0, 1)], finalBlocks := 1,
            finalFullness := 0, timeAvgFullness := 0, totalInsertions := 0,
            inserts := 0, splits := 0, B := 2, r := 1 }, by decide, by decide, by decide⟩

/-- C5 witness: the bounds at a concrete one-batch run. -/
theorem C5_witness :
    0 < ({ method := "immediately", hist := [(1, 1)], finalBlocks := 1,
           finalFullness := 1/2, timeAvgFullness := 1/2, totalInsertions := 1,
           inserts := 1, splits := 0, B := 2, r := 1 } : SimRecord).finalFullness ∧
    ({ method := "immediately", hist := [(1, 1)], finalBlocks := 1,
       finalFullness := 1/2, timeAvgFullness := 1/2, totalInsertions := 1,
       inserts := 1, splits := 0, B := 2, r := 1 } : SimRecord).finalFullness ≤ 1 ∧
    0 < ({ method := "immediately", hist := [(1, 1)], finalBlocks := 1,
           finalFullness := 1/2, timeAvgFullness := 1/2, totalInsertions := 1,
           inserts := 1, splits := 0, B := 2, r := 1 } : SimRecord).timeAvgFullness ∧
    ({ method := "immediately", hist := [(1, 1)], finalBlocks := 1,
       finalFullness := 1/2, timeAvgFullness := 1/2, totalInsertions := 1,
       inserts := 1, splits := 0, B := 2, r := 1 } : SimRecord).timeAvgFullness ≤ 1 :=
  C5_amended_fullness_in_unit 2 1 1 "immediately" (1/2) Rounding.floor orc0 10 _
    (by decide) (by decide) (by decide) (by decide)

/-- C6: for every `r ≥ 1` and `total_insertions ≥ 0`, a completed run
executed `total_insertions // r` batches (each adding exactly `r` to
`stats.inserts`, so `inserts = (total // r) · r`), silently dropping
any remainder: the result's `total_insertions` field equals
`(total // r) · r`, and it is the numerator of `final_fullness`. -/
theorem C6_batch_arithmetic (B r total : ℤ) (method : String) (p : ℚ)
    (rnd : Rounding) (oracle : ℕ → ℤ × ℕ) (fuel : ℕ)
    (hr : 1 ≤ r) (htot : 0 ≤ total) :
    batchArithProp B r total method p rnd oracle fuel := by
  have hfd0 : (0 : ℤ) ≤ Int.fdiv total r := by
    rw [Int.fdiv_eq_ediv _ (by omega)]
    exact Int.ediv_nonneg htot (by omega)
  have hfdc : (((Int.fdiv total r).toNat : ℕ) : ℤ) = Int.fdiv total r := by omega
  unfold batchArithProp onOk
  simp only [simulate, if_neg (show ¬ r < 1 by omega)]
  cases hrb : runBatches B r method p rnd fuel oracle (Int.fdiv total r).toNat with
  | ok st =>
    have hI := runBatches_invA B r method p rnd fuel oracle _ st hrb
    refine ⟨rfl, ?_, rfl⟩
    have hi := hI.inserts
    rw [hfdc] at hi
    exact hi
  | err m => trivial
  | outOfFuel => trivial

theorem runBatches_succ (B r : ℤ) (method : String) (p : ℚ) (rnd : Rounding)
    (fuel : ℕ) (oracle : ℕ → ℤ × ℕ) (k : ℕ) (st : SimState)
    (h : runBatches B r method p rnd fuel oracle k = .ok st) :
    runBatches B r method p rnd fuel oracle (k + 1) =
      simStep B r method p rnd fuel (oracle k) st := by
  simp only [runBatches]
  rw [h]

/-- C6 witness: `r = 7`, `total_insertions = 50` gives 7 batches and 49
effective elements in a concrete completed run. -/
theorem C6_witness :
    batchArithProp 10 7 50 "deferred" (1/2) Rounding.floor orc0 40 ∧
    simulate 10 7 50 "deferred" (1/2) Rounding.floor orc0 40 =
      SimOutcome.ok
        { method := "deferred", hist := [(7, 7)], finalBlocks := 7,
          finalFullness := 7/10, timeAvgFullness := 7/10, totalInsertions := 49,
          inserts := 49, splits := 6, B := 10, r := 7 } := by
  refine ⟨?_, ?_⟩
  · apply C6_batch_arithmetic
    · decide
    · decide
  have hb1 : runBatches 10 7 "deferred" (1/2) Rounding.floor 40 orc0 1 =
      SimOutcome.ok
        { hist := [(7, 1)], nblocks := 1, totalKeys := 7, inserts := 7, splits := 0,
          blocksTally := 7, elemTally := 49, capacityTally := 70 } := by
    decide
  have hb2 : runBatches 10 7 "deferred" (1/2) Rounding.floor 40 orc0 2 =
      SimOutcome.ok
        { hist := [(7, 2)], nblocks := 2, totalKeys := 14, inserts := 14, splits := 1,
          blocksTally := 21, elemTally := 147, capacityTally := 210 } := by
    rw [runBatches_succ 10 7 "deferred" (1/2) Rounding.floor 40 orc0 1 _ hb1]
    decide
  have hb3 : runBatches 10 7 "deferred" (1/2) Rounding.floor 40 orc0 3 =
      SimOutcome.ok
        { hist := [(7, 3)], nblocks := 3, totalKeys := 21, inserts := 21, splits := 2,
          blocksTally := 42, elemTally := 294, capacityTally := 420 } := by
    rw [runBatches_succ 10 7 "deferred" (1/2) Rounding.floor 40 orc0 2 _ hb2]
    decide
  have hb4 : runBatches 10 7 "deferred" (1/2) Rounding.floor 40 orc0 4 =
      SimOutcome.ok
        { hist := [(7, 4)], nblocks := 4, totalKeys := 28, inserts := 28, splits := 3,
          blocksTally := 70, elemTally := 490, capacityTally := 700 } := by
    rw [runBatches_succ 10 7 "deferred" (1/2) Rounding.floor 40 orc0 3 _ hb3]
    decide
  have hb5 : runBatches 10 7 "deferred" (1/2) Rounding.floor 40 orc0 5 =
      SimOutcome.ok
        { hist := [(7, 5)], nblocks := 5, totalKeys := 35, inserts := 35, splits := 4,
          blocksTally := 105, elemTally := 735, capacityTally := 1050 } := by
    rw [runBatches_succ 10 7 "deferred" (1/2) Rounding.floor 40 orc0 4 _ hb4]
    decide
  have hb6 : runBatches 10 7 "deferred" (1/2) Rounding.floor 40 orc0 6 =
      SimOutcome.ok
        { hist := [(7, 6)], nblocks := 6, totalKeys := 42, inserts := 42, splits := 5,
          blocksTally := 147, elemTally := 1029, capacityTally := 1470 } := by
    rw [runBatches_succ 10 7 "deferred" (1/2) Rounding.floor 40 orc0 5 _ hb5]
    decide
  have hb7 : runBatches 10 7 "deferred" (1/2) Rounding.floor 40 orc0 7 =
      SimOutcome.ok
        { hist := [(7, 7)], nblocks := 7, totalKeys := 49, inserts := 49, splits := 6,
          blocksTally := 196, elemTally := 1372, capacityTally := 1960 } := by
    rw [runBatches_succ 10 7 "deferred" (1/2) Rounding.floor 40 orc0 6 _ hb6]
    decide
  simp only [simulate, if_neg (show ¬ (7 : ℤ) < 1 by decide)]
  rw [show (Int.fdiv 50 7).toNat = 7 from by decide]
  rw [hb7]
  decide

theorem cascadeFuel_eq_fifo (B : ℤ) (p : ℚ) (rnd : Rounding) :
    ∀ fuel queue acc s,
      cascadeFuel B p rnd fuel queue acc s = fifoCascadeSpec B p rnd fuel queue acc s := by
  intro fuel
  induction fuel with
  | zero => intro queue acc s; rfl
  | succ fuel ih =>
    intro queue acc s
    cases queue with
    | nil => rfl
    | cons current rest =>
      by_cases hcur : current < B
      · simp [cascadeFuel, fifoCascadeSpec, hcur, ih]
      · by_cases hc1 : B ≤ (split_size p rnd current).1 <;>
          by_cases hc2 : B ≤ (split_size p rnd current).2 <;>
          simp [cascadeFuel, fifoCascadeSpec, hcur, hc1, hc2, ih]

/-- C7: the deferred policy ignores the offset and inserts the whole
batch first; if `occupancy + r < B` it returns exactly `[occupancy+r]`
with split count 0; otherwise (whenever it returns) every returned
occupancy is strictly below `B`, and the returned value is exactly
what the spec's FIFO work-queue discipline produces from the single
seed `occupancy + r`. -/
theorem C7_deferred_policy (B : ℤ) (p : ℚ) (rnd : Rounding) (fuel : ℕ) (occ r : ℤ) :
    (occ + r < B → insert_deferred B p rnd fuel occ r = some ([occ + r], 0)) ∧
    (∀ L s, insert_deferred B p rnd fuel occ r = some (L, s) → ∀ x ∈ L, x < B) ∧
    insert_deferred B p rnd fuel occ r =
      (if occ + r < B then some ([occ + r], 0)
       else fifoCascadeSpec B p rnd fuel [occ + r] [] 0) := by
  refine ⟨?_, ?_, ?_⟩
  · intro hlt
    simp [insert_deferred, hlt]
  · intro L s h
    exact insert_deferred_lt_B B p rnd fuel occ r L s h
  · unfold insert_deferred
    by_cases hlt : occ + r < B
    · simp [hlt]
    · simp [hlt, cascadeFuel_eq_fifo]

/-- C7 witness: the small-batch branch at `occ = 2`, `r = 3`, `B = 10`
and the cascade branch at `occ = 7`, `r = 7`, `B = 10`. -/
theorem C7_witness :
    insert_deferred 10 (1/2) Rounding.floor 5 2 3 = some ([2 + 3], 0) ∧
    (∀ x ∈ [(7 : ℤ), 7], x < 10) ∧
    insert_deferred 10 (1/2) Rounding.floor 5 7 7 =
      fifoCascadeSpec 10 (1/2) Rounding.floor 5 [7 + 7] [] 0 := by
  refine ⟨?_, ?_, ?_⟩
  · exact (C7_deferred_policy 10 (1/2) Rounding.floor 5 2 3).1 (by decide)
  · intro x hx
    exact (C7_deferred_policy 10 (1/2) Rounding.floor 5 7 7).2.1 [7, 7] 1 (by decide) x hx
  · have h3 := (C7_deferred_policy 10 (1/2) Rounding.floor 5 7 7).2.2
    rw [if_neg (by decide : ¬ ((7 : ℤ) + 7) < 10)] at h3
    exact h3

/-- C8 counterexample: the claimed exact `p ↔ 1-p` mirror symmetry
fails when `⌊p·size⌋` and `⌊(1-p)·size⌋` are not complementary: at
`size = 10`, `p = 1/4`, insertion end-position 9, the choice with `p`
gives children `(8, 2)`, but the choice with `1-p = 3/4` at the
mirrored end-position `10 - 9 = 1` gives `(7, 3)` — not the mirrored
pair `(2, 8)` (not even the same multiset of child sizes). -/
theorem C8_counterexample :
    adaptive2Choice (3/4) 10 (10 - 9) ≠
      ((adaptive2Choice (1/4) 10 9).2, (adaptive2Choice (1/4) 10 9).1) := by
  decide

/-- C8 (amended): the adaptive2 split choice computes
`p_split = clamp(⌊p·size⌋)` and its mirror `size - p_split`, splits at
the mirror (left = `size - p_split`, right = `p_split`) when the
insertion end-position exceeds the mirror threshold and at `p_split`
otherwise; the `p ↔ 1-p` symmetry holds for the unordered pair of
child sizes whenever the two clamped split points are complementary
(`p_split(p) + p_split(1-p) = size`, e.g. whenever `p·size` is an
integer), and in general only then. -/
theorem C8_amended_adaptive2_symmetry (p : ℚ) (size endPos : ℤ)
    (hcompl : max 1 (min (size - 1) ⌊p * (size : ℚ)⌋) +
      max 1 (min (size - 1) ⌊(1 - p) * (size : ℚ)⌋) = size) :
    (endPos > size - max 1 (min (size - 1) ⌊p * (size : ℚ)⌋) →
      adaptive2Choice p size endPos =
        (size - max 1 (min (size - 1) ⌊p * (size : ℚ)⌋),
         max 1 (min (size - 1) ⌊p * (size : ℚ)⌋))) ∧
    (¬ endPos > size - max 1 (min (size - 1) ⌊p * (size : ℚ)⌋) →
      adaptive2Choice p size endPos =
        (max 1 (min (size - 1) ⌊p * (size : ℚ)⌋),
         size - max 1 (min (size - 1) ⌊p * (size : ℚ)⌋))) ∧
    ({(adaptive2Choice (1 - p) size (size - endPos)).1,
      (adaptive2Choice (1 - p) size (size - endPos)).2} : Multiset ℤ) =
      {(adaptive2Choice p size endPos).2, (adaptive2Choice p size endPos).1} := by
  have hb : max 1 (min (size - 1) ⌊(1 - p) * (size : ℚ)⌋) =
      size - max 1 (min (size - 1) ⌊p * (size : ℚ)⌋) := by omega
  refine ⟨?_, ?_, ?_⟩
  · intro h1
    simp [adaptive2Choice, h1]
  · intro h1
    simp [adaptive2Choice, h1]
  · simp only [adaptive2Choice]
    rw [hb]
    generalize max 1 (min (size - 1) ⌊p * (size : ℚ)⌋) = A
    have hAA : size - (size - A) = A := by ring
    rw [hAA]
    by_cases h1 : endPos > size - A <;> by_cases h2 : size - endPos > A
    · omega
    · rw [if_pos h1, if_neg h2]
      exact Multiset.pair_comm _ _
    · rw [if_neg h1, if_pos h2]
      exact Multiset.pair_comm _ _
    · rw [if_neg h1, if_neg h2]

/-- C8 witness: the amended symmetry at `size = 10`, `p = 3/10`
(`⌊3⌋ + ⌊7⌋ = 10`), end-position 8. -/
theorem C8_witness :
    ((8 : ℤ) > 10 - max 1 (min ((10 : ℤ) - 1) ⌊(3/10 : ℚ) * ((10 : ℤ) : ℚ)⌋) →
      adaptive2Choice (3/10) 10 8 =
        (10 - max 1 (min ((10 : ℤ) - 1) ⌊(3/10 : ℚ) * ((10 : ℤ) : ℚ)⌋),
         max 1 (min ((10 : ℤ) - 1) ⌊(3/10 : ℚ) * ((10 : ℤ) : ℚ)⌋))) ∧
    (¬ (8 : ℤ) > 10 - max 1 (min ((10 : ℤ) - 1) ⌊(3/10 : ℚ) * ((10 : ℤ) : ℚ)⌋) →
      adaptive2Choice (3/10) 10 8 =
        (max 1 (min ((10 : ℤ) - 1) ⌊(3/10 : ℚ) * ((10 : ℤ) : ℚ)⌋),
         10 - max 1 (min ((10 : ℤ) - 1) ⌊(3/10 : ℚ) * ((10 : ℤ) : ℚ)⌋))) ∧
    ({(adaptive2Choice (1 - 3/10) 10 (10 - 8)).1,
      (adaptive2Choice (1 - 3/10) 10 (10 - 8)).2} : Multiset ℤ) =
      {(adaptive2Choice (3/10) 10 8).2, (adaptive2Choice (3/10) 10 8).1} := by
  apply C8_amended_adaptive2_symmetry
  decide
